import Mathlib

/-!
# A verification model of `wordvis.py` (taxonomy sunburst-chart generator)

This file embeds the core of `wordvis.py` — the weighted tree built by
`Tree.add`, the angular partitioner `Rings._dfs`/`Rings._on_node`, the label
collision filter of `CircleDiagram._draw_clades`, the colour-index division of
`CircleDiagram._colour_for_clade`, and the template substitution of `Svg.save`
— into Lean, and proves or refutes the specification claims about it.

Modelling conventions:
* Python `int` weights/counts are `ℤ`; the angular sizes and offsets produced
  by true division (`from __future__ import division`) are `ℚ` (exact, which
  subsumes the spec's "within floating-point tolerance").
* Python `dict` children maps are modelled as key-sorted association lists.
  The program observes its dicts only through key membership
  (`first_clade not in parent_node.children`), indexing, item assignment and
  `sorted(node.children.keys())`; all of these are reproduced exactly by a
  key-sorted association list, using the same code-point string order that
  Python's `sorted` uses.
* Python `set` (`tree.clades`) is likewise a sorted deduplicated list, whose
  only observation is `sorted(tree.clades)` and membership.
* Exceptions (`AttributeError` from the `node.letter` slip,
  `ZeroDivisionError` from `child.count/node_count`, `ValueError` from the
  `split` unpacking in `Svg.save`) are modelled with `Except String`.
-/

/-- `START = '^'` (wordvis.py line 39). -/
def START : String := "^"

/-- `END = '$'` (wordvis.py line 40). -/
def ENDMARK : String := "$"

/-- `SCALE = 1` (wordvis.py line 41). -/
def SCALE : ℚ := 1

/-- `LETTER_SPACING = 10 * SCALE` (wordvis.py line 49). -/
def LETTER_SPACING : ℚ := 10 * SCALE

/-- Lexicographic code-point order on character lists: exactly Python's
comparison of `str` values, used by `sorted`. -/
def lexLt : List Char → List Char → Bool
  | [], [] => false
  | [], _ :: _ => true
  | _ :: _, [] => false
  | a :: as, b :: bs =>
    if a.toNat < b.toNat then true
    else if b.toNat < a.toNat then false
    else lexLt as bs

/-- Python's `<` on strings (code-point lexicographic order). -/
def strLt (s t : String) : Bool := lexLt s.data t.data

/-- Dict lookup (`d[k]` / `k in d`) on an association list: first entry whose
key matches. -/
def alGet {α : Type} (k : String) : List (String × α) → Option α
  | [] => none
  | (k', v') :: rest => if k = k' then some v' else alGet k rest

/-- Dict item assignment `d[k] = v` on a key-sorted association list: replace
in place if the key is present, otherwise insert at the key's sorted
position. -/
def alSet {α : Type} (k : String) (v : α) : List (String × α) → List (String × α)
  | [] => [(k, v)]
  | (k', v') :: rest =>
    if k = k' then (k, v) :: rest
    else if strLt k k' then (k, v) :: (k', v') :: rest
    else (k', v') :: alSet k v rest

/-- Python `set.add`, with the set kept as a sorted deduplicated list (its only
observations in the program are membership and `sorted(...)`). -/
def setAdd (s : List String) (x : String) : List String :=
  match s with
  | [] => [x]
  | y :: rest =>
    if x = y then y :: rest
    else if strLt x y then x :: y :: rest
    else y :: setAdd rest x

/-- A tree node.  `Node` (wordvis.py lines 53-57) has `clade`, `count = 0`,
`children = {}`; `EndNode` (lines 60-64) has `clade = END`, `count = 1`,
`children = {}`.  The flag `isEnd` records the Python class of the object,
i.e. what `isinstance(node, EndNode)` tests. -/
inductive RNode : Type where
  | mk : (clade : String) → (count : ℤ) → (isEnd : Bool) →
      (children : List (String × RNode)) → RNode

/-- Field `clade`. -/
def RNode.clade : RNode → String
  | .mk c _ _ _ => c

/-- Field `count`. -/
def RNode.count : RNode → ℤ
  | .mk _ k _ _ => k

/-- Whether the object is an `EndNode` instance. -/
def RNode.isEnd : RNode → Bool
  | .mk _ _ e _ => e

/-- Field `children`. -/
def RNode.children : RNode → List (String × RNode)
  | .mk _ _ _ ch => ch

/-- `EndNode()` — clade `END`, count 1, no children (wordvis.py lines 60-64). -/
def endNode : RNode := .mk ENDMARK 1 true []

/-- `Node(clade)` — given clade, count 0, no children (wordvis.py lines 53-57). -/
def newNode (c : String) : RNode := .mk c 0 false []

/-- `Tree.add.add_clades(parent_node, clades, count)` (wordvis.py lines 73-83):
add `count` to the node's total; if the path is exhausted, install a fresh
`EndNode` under the `END` key; otherwise ensure a child for the first segment
exists and recurse into it with the rest of the path. -/
def addClades : RNode → List String → ℤ → RNode
  | n, [], w => .mk n.clade (n.count + w) n.isEnd (alSet ENDMARK endNode n.children)
  | n, c :: rest, w =>
    let child := match alGet c n.children with
      | some ch => ch
      | none => newNode c
    .mk n.clade (n.count + w) n.isEnd (alSet c (addClades child rest w) n.children)

/-- The `Tree` object: `root = Node(START)`, `clades = set()`
(wordvis.py lines 67-70). -/
structure PyTree : Type where
  root : RNode
  clades : List String

/-- `Tree()` — fresh root, empty clade set. -/
def treeNew : PyTree := ⟨newNode START, []⟩

/-- `Tree.add(taxonomy, count)` (wordvis.py lines 72-86): update the clade
vocabulary with all segments and run `add_clades` from the root. -/
def PyTree.add (t : PyTree) (taxonomy : List String) (count : ℤ) : PyTree :=
  ⟨addClades t.root taxonomy count, taxonomy.foldl setAdd t.clades⟩

/-- One input record: an already-parsed taxonomy path and its weight
(the main script does `tree.add(taxonomy.split(';'), int(count))`). -/
abbrev RecT : Type := List String × ℤ

/-- Building the tree from a sequence of records, in order
(the main script's read loop, wordvis.py lines 258-261). -/
def buildTree (recs : List RecT) : PyTree :=
  recs.foldl (fun t r => t.add r.1 r.2) treeNew

/-- One ring entry `[label, size, offset]` as appended by `Rings._on_node`. -/
abbrev TierEntry : Type := String × ℚ × ℚ

/-- `Rings.tiers`: a dict from depth to the list of entries appended at that
depth, modelled as a `ℕ`-sorted association list. -/
abbrev Tiers : Type := List (ℕ × List TierEntry)

/-- Lookup in the tiers dict. -/
def tGet (k : ℕ) : Tiers → Option (List TierEntry)
  | [] => none
  | (k', v') :: rest => if k = k' then some v' else tGet k rest

/-- Assignment in the tiers dict (kept sorted by depth). -/
def tSet (k : ℕ) (v : List TierEntry) : Tiers → Tiers
  | [] => [(k, v)]
  | (k', v') :: rest =>
    if k = k' then (k, v) :: rest
    else if k < k' then (k, v) :: (k', v') :: rest
    else (k', v') :: tSet k v rest

/-- `if depth not in self.tiers: self.tiers[depth] = []` followed by
`self.tiers[depth].append(entry)` (wordvis.py lines 230-233). -/
def tiersAppend (d : ℕ) (e : TierEntry) (ts : Tiers) : Tiers :=
  match tGet d ts with
  | none => tSet d [e] ts
  | some l => tSet d (l ++ [e]) ts

/-- A Python attribute value of a tree node. -/
inductive PyVal : Type where
  | str : String → PyVal
  | int : ℤ → PyVal
  | childrenVal : List (String × RNode) → PyVal

/-- Python attribute lookup on a tree node.  Both `Node` and `EndNode` define
exactly the attributes `clade`, `count` and `children`
(wordvis.py lines 53-64); any other name raises `AttributeError`. -/
def RNode.getattr (n : RNode) : String → Option PyVal
  | "clade" => some (.str n.clade)
  | "count" => some (.int n.count)
  | "children" => some (.childrenVal n.children)
  | _ => none

/-- The message of the `AttributeError` raised by `self.tiers[depth].append(
[node.letter, size, offset])` in `Rings._on_node` (wordvis.py line 233). -/
def attrErrMsg : String := "AttributeError: Node object has no attribute letter"

/-- The message of the `ZeroDivisionError` raised by
`node_size * child.count/node_count` when `node_count == 0`
(wordvis.py line 241). -/
def zeroDivMsg : String := "ZeroDivisionError: division by zero"

/-- An emission hook: what `_dfs` does with a finished node. -/
abbrev EmitFn : Type := RNode → ℕ → ℚ → ℚ → Tiers → Except String Tiers

/-- `Rings._on_node` exactly as written (wordvis.py lines 226-233): skip
`EndNode` instances; otherwise append `[node.letter, size, offset]` — but the
node has no attribute `letter` (only `clade`, `count`, `children`), so the
attribute lookup fails. -/
def onNodePy : EmitFn := fun n depth size offset ts =>
  if n.isEnd then .ok ts
  else
    match n.getattr "letter" with
    | some (.str s) => .ok (tiersAppend depth (s, size, offset) ts)
    | _ => .error attrErrMsg

/-- `Rings._on_node` with the attribute slip repaired to the attribute the
node actually has (`clade`).  Used to reason about the angular intervals that
`_dfs` assigns independently of the naming bug, which claim C4 settles. -/
def onNodeClade : EmitFn := fun n depth size offset ts =>
  if n.isEnd then .ok ts
  else .ok (tiersAppend depth (n.clade, size, offset) ts)

mutual

/-- `Rings._dfs(node, depth, node_size, offset)` (wordvis.py lines 235-245):
process the children in sorted key order (the children list is key-sorted),
then emit the node itself via `_on_node`. -/
def dfsNode (emit : EmitFn) : RNode → ℕ → ℚ → ℚ → Tiers → Except String Tiers
  | .mk c k e ch, depth, size, offset, ts =>
    match dfsKids emit k ch depth size offset ts with
    | .error m => .error m
    | .ok ts' => emit (.mk c k e ch) depth size offset ts'
termination_by n => sizeOf n
decreasing_by simp_wf

/-- The child loop of `Rings._dfs` (wordvis.py lines 239-243): each child gets
`child_size = node_size * child.count/node_count` — a `ZeroDivisionError` when
`node_count == 0` — placed at the running cursor, which then advances. -/
def dfsKids (emit : EmitFn) : ℤ → List (String × RNode) → ℕ → ℚ → ℚ → Tiers →
    Except String Tiers
  | _, [], _, _, _, ts => .ok ts
  | w, (_, child) :: rest, depth, size, cursor, ts =>
    if w = 0 then .error zeroDivMsg
    else
      match dfsNode emit child (depth + 1) (size * (child.count : ℚ) / (w : ℚ)) cursor ts with
      | .error m => .error m
      | .ok ts' => dfsKids emit w rest depth size
          (cursor + size * (child.count : ℚ) / (w : ℚ)) ts'
termination_by _ l => sizeOf l
decreasing_by all_goals (simp_wf <;> omega)

end

/-- `Rings(tree)` (wordvis.py lines 221-224): `self._dfs(tree.root, 0, 1, 0)`,
with the `node.letter` emission exactly as in the source. -/
def ringsPy (t : PyTree) : Except String Tiers :=
  dfsNode onNodePy t.root 0 1 0 []

/-- `Rings(tree)` with the emission repaired to `node.clade`: the angular
interval structure (labels, sizes, offsets per depth) computed by `_dfs`. -/
def ringsClade (t : PyTree) : Except String Tiers :=
  dfsNode onNodeClade t.root 0 1 0 []

/-- The per-child angular intervals assigned by one execution of the `_dfs`
child loop (wordvis.py lines 239-243) over a children list, for a node of
weight `w` holding the interval `(size, offset)`: each child is recorded as
`(key, child_size, child_offset)`. -/
def childIntervals (w : ℤ) : List (String × RNode) → ℚ → ℚ →
    Except String (List (String × ℚ × ℚ))
  | [], _, _ => .ok []
  | (k, child) :: rest, size, cursor =>
    if w = 0 then .error zeroDivMsg
    else
      match childIntervals w rest size (cursor + size * (child.count : ℚ) / (w : ℚ)) with
      | .error m => .error m
      | .ok l => .ok ((k, size * (child.count : ℚ) / (w : ℚ), cursor) :: l)

/-- The intervals `_dfs` assigns to the children of a node. -/
def nodeIntervals (n : RNode) (size offset : ℚ) :
    Except String (List (String × ℚ × ℚ)) :=
  childIntervals n.count n.children size offset

/-- A list of intervals tiles `[o, ...)` consecutively: each entry starts
exactly where the previous one ended. -/
def contiguousFrom (o : ℚ) : List (String × ℚ × ℚ) → Prop
  | [] => True
  | (_, s, off) :: rest => off = o ∧ contiguousFrom (o + s) rest

/-- `sortedKeysB ks` holds when `ks` is strictly increasing in Python string
order — i.e. it is what `sorted` returns on a duplicate-free key set. -/
def sortedKeysB : List String → Bool
  | [] => true
  | [_] => true
  | a :: b :: rest => strLt a b && sortedKeysB (b :: rest)

/-- Local well-formedness of one children-dict entry: the value is an
`EndNode` exactly when its key is the `END` marker, and an `EndNode` carries
count 1 and no children. -/
def entryOK (k : String) (v : RNode) : Bool :=
  (v.isEnd == (k == ENDMARK)) && (!v.isEnd || (v.count == 1 && v.children.isEmpty))

mutual

/-- Structural well-formedness of every tree `Tree.add` can build from records
whose segments avoid the reserved `END` marker: children lists are key-sorted
and every entry satisfies `entryOK`, recursively. -/
def wfT : RNode → Bool
  | .mk _ _ _ ch => sortedKeysB (ch.map (fun p => p.1)) && wfKidsT ch

/-- Entrywise part of `wfT`. -/
def wfKidsT : List (String × RNode) → Bool
  | [] => true
  | (k, v) :: rest => entryOK k v && wfT v && wfKidsT rest

end

mutual

/-- No node with children has total count zero — the condition under which the
`_dfs` child loop performs no division by zero anywhere in the subtree. -/
def noZeroDiv : RNode → Bool
  | .mk _ k _ ch => (ch.isEmpty || !(k == 0)) && noZeroDivKids ch

/-- `noZeroDiv` for every child of a list. -/
def noZeroDivKids : List (String × RNode) → Bool
  | [] => true
  | (_, v) :: rest => noZeroDiv v && noZeroDivKids rest

end

/-- Walk from a node along a label path through the children dicts. -/
def lookupPath : RNode → List String → Option RNode
  | n, [] => some n
  | n, c :: rest =>
    match alGet c n.children with
    | some ch => lookupPath ch rest
    | none => none

/-- The weight a child contributes to its parent's "sum of children's
weights" in the sense of the spec: `EndNode` markers signal termination and
are not counted. -/
def realCount (v : RNode) : ℤ := if v.isEnd then 0 else v.count

/-- Sum of the weights of the non-end children of a node. -/
def sumRealChildren (n : RNode) : ℤ :=
  (n.children.map (fun p => realCount p.2)).sum

/-- Total weight of the records of `recs` whose path is exactly `p` — the
weight "terminating exactly at" the node reached by `p`. -/
def termWeight (recs : List RecT) (p : List String) : ℤ :=
  ((recs.filter (fun r => r.1 = p)).map (fun r => r.2)).sum

/-- No record path of the list contains the reserved `END` marker as a
segment. -/
def dollarFree (recs : List RecT) : Prop := ∀ r ∈ recs, ENDMARK ∉ r.1

instance dollarFreeDecidable (recs : List RecT) : Decidable (dollarFree recs) :=
  inferInstanceAs (Decidable (∀ r ∈ recs, ENDMARK ∉ r.1))

/-- Python `list.index(x)`: position of the first occurrence, if any. -/
def pyIndex (x : String) : List String → Option ℕ
  | [] => none
  | y :: rest => if y = x then some 0 else (pyIndex x rest).map (· + 1)

/-- `CircleDiagram._colour_for_clade` (wordvis.py lines 148-152): position of
the clade in the sorted vocabulary divided by the vocabulary size — a
`ValueError` if the clade is absent, a `ZeroDivisionError` if the vocabulary
is empty.  The result is the hue fraction `clade_index / clade_count`; the
fixed-lightness HLS-to-RGB-hex formatting downstream of the division carries
no further failure and no claim concerns its value, so it is not modelled. -/
def colourForClade (clades : List String) (clade : String) : Except String ℚ :=
  match pyIndex clade clades with
  | none => .error "ValueError: clade is not in list"
  | some i =>
    if clades.length = 0 then .error zeroDivMsg
    else .ok ((i : ℚ) / (clades.length : ℚ))

/-- A style rule added by `CircleDiagram.__init__` (wordvis.py lines 143-146):
one fill rule per clade (carrying the hue fraction) and the base text rule. -/
inductive StyleRule : Type where
  | cladeStyle : String → ℚ → StyleRule
  | textStyle : StyleRule

/-- `CircleDiagram.__init__` (wordvis.py lines 135-146): compute every clade's
colour (for `clade_colours` and the per-clade style rules, in vocabulary
order), then add the base text style. -/
def setupStyles (clades : List String) : Except String (List StyleRule) :=
  match clades.mapM (fun c => colourForClade clades c) with
  | .error m => .error m
  | .ok hues => .ok ((clades.zip hues).map (fun p => .cladeStyle p.1 p.2) ++ [.textStyle])

/-- The main script (wordvis.py lines 258-269) up to the point where every run
fails: build the tree, set up the diagram styles from `sorted(tree.clades)`
(our clade set is already sorted), then construct `Rings(tree)`.  The ring
drawing and `Svg.save` below that point are unreachable for every tree the
script can build (claim C4), so the pipeline result is the styles and tiers. -/
def pipelineE (recs : List RecT) : Except String (List StyleRule × Tiers) :=
  let t := buildTree recs
  match setupStyles t.clades with
  | .error m => .error m
  | .ok styles =>
    match ringsPy t with
    | .error m => .error m
    | .ok tiers => .ok (styles, tiers)

/-- One label candidate of `CircleDiagram._draw_clades` after the coordinate
step (wordvis.py lines 172-179): `(clade, end_angle - start_angle, x, y)`.
The planar anchors are computed there with `math.sin`/`math.cos`; the claims
about label placement concern only the collision filter, which is uniform in
the anchor values, so candidates carry arbitrary rational anchors. -/
abbrev LabelCand : Type := String × ℚ × ℚ × ℚ

/-- Stable insertion into a size-descending list (ties keep earlier-seen
candidates first), matching Python's stable `sort(key=..., reverse=True)`. -/
def insertBySizeDesc (c : LabelCand) : List LabelCand → List LabelCand
  | [] => [c]
  | d :: rest =>
    if d.2.1 < c.2.1 then c :: d :: rest
    else d :: insertBySizeDesc c rest

/-- `clade_coords.sort(key=lambda n: n[1], reverse=True)`
(wordvis.py line 182). -/
def sortBySizeDesc : List LabelCand → List LabelCand
  | [] => []
  | c :: rest => insertBySizeDesc c (sortBySizeDesc rest)

/-- `is_room(x, y)` (wordvis.py lines 185-190): true when `(x, y)` is at
squared distance at least `LETTER_SPACING**2` from every occupied anchor. -/
def isRoom (occupied : List (ℚ × ℚ)) (x y : ℚ) : Bool :=
  occupied.all (fun o => !((o.1 - x) ^ 2 + (o.2 - y) ^ 2 < LETTER_SPACING ^ 2))

/-- The greedy loop of `_draw_clades` (wordvis.py lines 193-196): accept a
candidate only if there is room, emitting its upper-cased text and recording
its anchor as occupied. -/
def placeLoop (occupied : List (ℚ × ℚ)) : List LabelCand →
    List (String × ℚ × ℚ)
  | [] => []
  | (clade, _, x, y) :: rest =>
    if isRoom occupied x y then
      (clade.toUpper, x, y) :: placeLoop (occupied ++ [(x, y)]) rest
    else placeLoop occupied rest

/-- `CircleDiagram._draw_clades` from the sort onward (wordvis.py lines
181-196): sort candidates by segment size, largest first, then place greedily
with the minimum-spacing filter. -/
def drawClades (cands : List LabelCand) : List (String × ℚ × ℚ) :=
  placeLoop [] (sortBySizeDesc cands)

/-- `'%style%'` (wordvis.py line 120), as a character list. -/
def styleMarker : List Char := ['%', 's', 't', 'y', 'l', 'e', '%']

/-- `'%substance%'` (wordvis.py line 121), as a character list. -/
def substanceMarker : List Char := ['%', 's', 'u', 'b', 's', 't', 'a', 'n', 'c', 'e', '%']

/-- The message of the `ValueError` raised when unpacking a `split` result
that does not have exactly two parts (wordvis.py lines 120-121). -/
def valueErrMsg : String := "ValueError: unpacking split result"

/-- Fuel-driven worker for `str.split(sep)` with a non-empty separator:
whenever `sep` occurs next, close the current chunk and continue after it;
otherwise move one character.  Fuel bounds the recursion so the definition is
structural (and hence computable by the kernel); `splitOnSub` supplies enough
fuel for the whole string. -/
def splitFuel (sep : List Char) : ℕ → List Char → List (List Char)
  | 0, s => [s]
  | _ + 1, [] => [[]]
  | fuel + 1, c :: rest =>
    if sep.isPrefixOf (c :: rest) then
      [] :: splitFuel sep fuel ((c :: rest).drop sep.length)
    else
      match splitFuel sep fuel rest with
      | [] => [[c]]
      | chunk :: more => (c :: chunk) :: more

/-- Python `s.split(sep)` for a non-empty separator. -/
def splitOnSub (sep s : List Char) : List (List Char) :=
  splitFuel sep (s.length + 1) s

/-- Whether `sep` occurs as a contiguous substring of `s`. -/
def containsSub (sep : List Char) : List Char → Bool
  | [] => sep.isPrefixOf []
  | c :: rest => sep.isPrefixOf (c :: rest) || containsSub sep rest

/-- `Svg.save` (wordvis.py lines 119-131): split the template on `%style%`
into exactly two parts (a `ValueError` otherwise), split the tail on
`%substance%` into exactly two parts (likewise), then write the first part,
every stored style in order, the middle part, every stored content primitive
in order, and the final part. -/
def svgSave (template : List Char) (styles content : List (List Char)) :
    Except String (List Char) :=
  match splitOnSub styleMarker template with
  | [part1, tmp] =>
    match splitOnSub substanceMarker tmp with
    | [part2, part3] =>
      .ok (part1 ++ styles.flatten ++ part2 ++ content.flatten ++ part3)
    | _ => .error valueErrMsg
  | _ => .error valueErrMsg

/-! ## Basic lemmas: projections and the string order -/

@[simp]
theorem RNode.clade_mk (c : String) (k : ℤ) (e : Bool) (ch : List (String × RNode)) :
    (RNode.mk c k e ch).clade = c := rfl

@[simp]
theorem RNode.count_mk (c : String) (k : ℤ) (e : Bool) (ch : List (String × RNode)) :
    (RNode.mk c k e ch).count = k := rfl

@[simp]
theorem RNode.isEnd_mk (c : String) (k : ℤ) (e : Bool) (ch : List (String × RNode)) :
    (RNode.mk c k e ch).isEnd = e := rfl

@[simp]
theorem RNode.children_mk (c : String) (k : ℤ) (e : Bool) (ch : List (String × RNode)) :
    (RNode.mk c k e ch).children = ch := rfl

theorem strDataInj {s t : String} (h : s.data = t.data) : s = t := by
  cases s; cases t; exact congrArg String.mk h

theorem charToNatInj {a b : Char} (h : a.toNat = b.toNat) : a = b :=
  Char.eq_of_val_eq (UInt32.ext h)

@[simp]
theorem lexLt_nil_nil : lexLt [] [] = false := rfl

@[simp]
theorem lexLt_nil_cons (b : Char) (bs : List Char) : lexLt [] (b :: bs) = true := rfl

@[simp]
theorem lexLt_cons_nil (a : Char) (as : List Char) : lexLt (a :: as) [] = false := rfl

theorem lexLt_cons (a b : Char) (as bs : List Char) :
    lexLt (a :: as) (b :: bs) =
      if a.toNat < b.toNat then true
      else if b.toNat < a.toNat then false
      else lexLt as bs := rfl

theorem lexLt_irrefl (a : List Char) : lexLt a a = false := by
  induction a with
  | nil => rfl
  | cons c r ih => simp [lexLt_cons, ih]

theorem lexLt_asymm {a b : List Char} (h : lexLt a b = true) : lexLt b a = false := by
  induction a generalizing b with
  | nil =>
    cases b with
    | nil => simp at h
    | cons d s => simp
  | cons c r ih =>
    cases b with
    | nil => simp at h
    | cons d s =>
      rw [lexLt_cons] at h
      rw [lexLt_cons]
      split_ifs at h ⊢ with h1 h2 h3 h4 <;> first
        | rfl
        | omega
        | exact ih h
        | simp at h

theorem lexLt_total {a b : List Char} (h : a ≠ b) :
    lexLt a b = true ∨ lexLt b a = true := by
  induction a generalizing b with
  | nil =>
    cases b with
    | nil => exact absurd rfl h
    | cons d s => left; simp
  | cons c r ih =>
    cases b with
    | nil => right; simp
    | cons d s =>
      rw [lexLt_cons, lexLt_cons]
      rcases Nat.lt_trichotomy c.toNat d.toNat with hlt | heq | hgt
      · left; simp [hlt]
      · have hc : c = d := charToNatInj heq
        subst hc
        have hrs : r ≠ s := by intro hx; exact h (by rw [hx])
        rcases ih hrs with h1 | h1
        · left; simp [h1]
        · right; simp [h1]
      · right; simp [hgt, Nat.lt_asymm hgt]

theorem lexLt_trans {a b c : List Char} (h1 : lexLt a b = true)
    (h2 : lexLt b c = true) : lexLt a c = true := by
  induction a generalizing b c with
  | nil =>
    cases c with
    | nil =>
      cases b with
      | nil => simp at h1
      | cons d s => simp at h2
    | cons e t => simp
  | cons x r ih =>
    cases b with
    | nil => simp at h1
    | cons y s =>
      cases c with
      | nil => simp at h2
      | cons z t =>
        rw [lexLt_cons] at h1 h2
        rw [lexLt_cons]
        split_ifs at h1 h2 ⊢ with g1 g2 g3 g4 g5 g6 <;> first
          | rfl
          | omega
          | (exact ih h1 h2)
          | simp at h1 h2

theorem strLt_irrefl (s : String) : strLt s s = false := lexLt_irrefl s.data

theorem strLt_asymm {s t : String} (h : strLt s t = true) : strLt t s = false :=
  lexLt_asymm h

theorem strLt_total {s t : String} (h : s ≠ t) :
    strLt s t = true ∨ strLt t s = true :=
  lexLt_total (fun hd => h (strDataInj hd))

theorem strLt_trans {s t u : String} (h1 : strLt s t = true)
    (h2 : strLt t u = true) : strLt s u = true :=
  lexLt_trans h1 h2

theorem strLt_ne {s t : String} (h : strLt s t = true) : s ≠ t := by
  intro hx
  subst hx
  rw [strLt_irrefl] at h
  exact Bool.false_ne_true h

/-! ## Lemmas about the association-list dict operations -/

@[simp]
theorem alGet_nil {α : Type} (k : String) : alGet (α := α) k [] = none := rfl

theorem alGet_cons {α : Type} (k k' : String) (v' : α) (l : List (String × α)) :
    alGet k ((k', v') :: l) = if k = k' then some v' else alGet k l := rfl

theorem alGet_alSet_self {α : Type} (k : String) (v : α) (l : List (String × α)) :
    alGet k (alSet k v l) = some v := by
  induction l with
  | nil => simp [alSet, alGet_cons]
  | cons p rest ih =>
    obtain ⟨k', v'⟩ := p
    by_cases h1 : k = k'
    · subst h1
      simp [alSet, alGet_cons]
    · by_cases h2 : strLt k k' = true
      · simp [alSet, h1, h2, alGet_cons]
      · simp [alSet, h1, h2, alGet_cons, ih]

theorem alGet_alSet_ne {α : Type} {k k' : String} (h : k' ≠ k) (v : α)
    (l : List (String × α)) : alGet k' (alSet k v l) = alGet k' l := by
  induction l with
  | nil => simp [alSet, alGet_cons, h]
  | cons p rest ih =>
    obtain ⟨k0, v0⟩ := p
    by_cases h1 : k = k0
    · subst h1
      simp [alSet, alGet_cons, h, if_neg h]
    · by_cases h2 : strLt k k0 = true
      · simp [alSet, h1, h2, alGet_cons, if_neg h]
      · simp [alSet, h1, h2, alGet_cons, ih]

theorem alSet_alSet_self {α : Type} (k : String) (v1 v2 : α) (l : List (String × α)) :
    alSet k v1 (alSet k v2 l) = alSet k v1 l := by
  induction l with
  | nil => simp [alSet]
  | cons p rest ih =>
    obtain ⟨k0, v0⟩ := p
    by_cases h1 : k = k0
    · subst h1
      simp [alSet]
    · by_cases h2 : strLt k k0 = true
      · simp [alSet, h1, h2]
      · simp [alSet, h1, h2, ih]

theorem alSet_comm {α : Type} {k1 k2 : String} (h : k1 ≠ k2) (v1 v2 : α)
    (l : List (String × α)) :
    alSet k1 v1 (alSet k2 v2 l) = alSet k2 v2 (alSet k1 v1 l) := by
  induction l with
  | nil =>
    rcases strLt_total h with hlt | hlt
    · simp [alSet, h, Ne.symm h, hlt, strLt_asymm hlt]
    · simp [alSet, h, Ne.symm h, hlt, strLt_asymm hlt]
  | cons p rest ih =>
    obtain ⟨k0, v0⟩ := p
    by_cases e2 : k2 = k0
    · subst e2
      rcases strLt_total h with hlt | hlt
      · simp [alSet, h, Ne.symm h, hlt, strLt_asymm hlt]
      · simp [alSet, h, Ne.symm h, hlt, strLt_asymm hlt]
    · by_cases e1 : k1 = k0
      · subst e1
        rcases strLt_total h with hlt | hlt
        · simp [alSet, h, Ne.symm h, e2, hlt, strLt_asymm hlt]
        · simp [alSet, h, Ne.symm h, e2, hlt, strLt_asymm hlt]
      · by_cases s2 : strLt k2 k0 = true
        · by_cases s1 : strLt k1 k0 = true
          · rcases strLt_total h with hlt | hlt
            · simp [alSet, h, Ne.symm h, e1, e2, s1, s2, hlt, strLt_asymm hlt]
            · simp [alSet, h, Ne.symm h, e1, e2, s1, s2, hlt, strLt_asymm hlt]
          · have hlt : strLt k2 k1 = true := by
              rcases strLt_total h with hx | hx
              · exact absurd (strLt_trans hx s2) s1
              · exact hx
            simp [alSet, h, Ne.symm h, e1, e2, s1, s2, hlt, strLt_asymm hlt]
        · by_cases s1 : strLt k1 k0 = true
          · have hlt : strLt k1 k2 = true := by
              rcases strLt_total h with hx | hx
              · exact hx
              · exact absurd (strLt_trans hx s1) s2
            simp [alSet, h, Ne.symm h, e1, e2, s1, s2, hlt, strLt_asymm hlt]
          · simp [alSet, h, Ne.symm h, e1, e2, s1, s2, ih]

theorem alGet_mem {α : Type} {k : String} {v : α} {l : List (String × α)}
    (h : alGet k l = some v) : (k, v) ∈ l := by
  induction l with
  | nil => simp at h
  | cons p rest ih =>
    obtain ⟨k0, v0⟩ := p
    rw [alGet_cons] at h
    by_cases h1 : k = k0
    · subst h1
      simp only [if_pos rfl] at h
      obtain rfl : v0 = v := Option.some.inj h
      exact List.mem_cons_self _ _
    · rw [if_neg h1] at h
      exact List.mem_cons_of_mem _ (ih h)

/-! ## Sorted-key lemmas and the structural invariant -/

@[simp]
theorem sortedKeysB_nil : sortedKeysB [] = true := rfl

@[simp]
theorem sortedKeysB_single (a : String) : sortedKeysB [a] = true := rfl

theorem sortedKeysB_cons2 (a b : String) (r : List String) :
    sortedKeysB (a :: b :: r) = (strLt a b && sortedKeysB (b :: r)) := rfl

theorem sortedKeysB_tail {a : String} {ks : List String}
    (h : sortedKeysB (a :: ks) = true) : sortedKeysB ks = true := by
  cases ks with
  | nil => rfl
  | cons b r =>
    rw [sortedKeysB_cons2] at h
    exact (Bool.and_eq_true_iff.mp h).2

theorem sortedKeysB_cons_iff (a : String) (ks : List String) :
    sortedKeysB (a :: ks) = true ↔
      (∀ b ∈ ks, strLt a b = true) ∧ sortedKeysB ks = true := by
  induction ks generalizing a with
  | nil => simp
  | cons c r ih =>
    rw [sortedKeysB_cons2]
    constructor
    · intro h
      obtain ⟨h1, h2⟩ := Bool.and_eq_true_iff.mp h
      refine ⟨?_, h2⟩
      intro b hb
      rcases List.mem_cons.mp hb with rfl | hb
      · exact h1
      · exact strLt_trans h1 (((ih c).mp h2).1 b hb)
    · intro ⟨h1, h2⟩
      exact Bool.and_eq_true_iff.mpr ⟨h1 c (List.mem_cons_self _ _), h2⟩

theorem alGet_none_of_all_lt {α : Type} {k : String} {l : List (String × α)}
    (h : ∀ p ∈ l, strLt k p.1 = true) : alGet k l = none := by
  induction l with
  | nil => rfl
  | cons p rest ih =>
    obtain ⟨k0, v0⟩ := p
    rw [alGet_cons, if_neg (strLt_ne (h (k0, v0) (List.mem_cons_self _ _)))]
    exact ih (fun q hq => h q (List.mem_cons_of_mem _ hq))

theorem mem_alSet {α : Type} {p : String × α} {k : String} {v : α}
    {l : List (String × α)} (h : p ∈ alSet k v l) : p = (k, v) ∨ p ∈ l := by
  induction l with
  | nil => simpa [alSet] using h
  | cons q rest ih =>
    obtain ⟨k0, v0⟩ := q
    by_cases h1 : k = k0
    · subst h1
      simp only [alSet, if_pos rfl] at h
      rcases List.mem_cons.mp h with rfl | h
      · exact Or.inl rfl
      · exact Or.inr (List.mem_cons_of_mem _ h)
    · by_cases h2 : strLt k k0 = true
      · simp only [alSet, if_neg h1, if_pos h2] at h
        rcases List.mem_cons.mp h with rfl | h
        · exact Or.inl rfl
        · exact Or.inr h
      · simp only [alSet, if_neg h1, if_neg h2] at h
        rcases List.mem_cons.mp h with rfl | h
        · exact Or.inr (List.mem_cons_self _ _)
        · rcases ih h with h | h
          · exact Or.inl h
          · exact Or.inr (List.mem_cons_of_mem _ h)

theorem sortedKeysB_alSet {α : Type} {l : List (String × α)}
    (hs : sortedKeysB (l.map (fun p => p.1)) = true) (k : String) (v : α) :
    sortedKeysB ((alSet k v l).map (fun p => p.1)) = true := by
  induction l with
  | nil => simp [alSet]
  | cons q rest ih =>
    obtain ⟨k0, v0⟩ := q
    simp only [List.map_cons] at hs
    obtain ⟨hbound, htail⟩ := (sortedKeysB_cons_iff _ _).mp hs
    by_cases h1 : k = k0
    · subst h1
      simpa [alSet] using hs
    · by_cases h2 : strLt k k0 = true
      · simp only [alSet, if_neg h1, if_pos h2, List.map_cons]
        refine (sortedKeysB_cons_iff _ _).mpr ⟨?_, hs⟩
        intro b hb
        rcases List.mem_cons.mp hb with rfl | hb
        · exact h2
        · exact strLt_trans h2 (hbound b hb)
      · have h0 : strLt k0 k = true := by
          rcases strLt_total (fun hx => h1 hx.symm) with hx | hx
          · exact hx
          · exact absurd hx h2
        simp only [alSet, if_neg h1, if_neg h2, List.map_cons]
        refine (sortedKeysB_cons_iff _ _).mpr ⟨?_, ih htail⟩
        intro b hb
        rw [List.mem_map] at hb
        obtain ⟨p, hp, rfl⟩ := hb
        rcases mem_alSet hp with rfl | hp
        · exact h0
        · exact hbound p.1 (List.mem_map.mpr ⟨p, hp, rfl⟩)

theorem sum_map_alSet {α : Type} (F : α → ℤ) {l : List (String × α)}
    (hs : sortedKeysB (l.map (fun p => p.1)) = true) (k : String) (v : α) :
    ((alSet k v l).map (fun p => F p.2)).sum =
      (l.map (fun p => F p.2)).sum + F v -
        (match alGet k l with | some o => F o | none => 0) := by
  induction l with
  | nil => simp [alSet]
  | cons q rest ih =>
    obtain ⟨k0, v0⟩ := q
    simp only [List.map_cons] at hs
    obtain ⟨hbound, htail⟩ := (sortedKeysB_cons_iff _ _).mp hs
    by_cases h1 : k = k0
    · subst h1
      simp only [alSet, alGet_cons, eq_self_iff_true, if_true, List.map_cons,
        List.sum_cons]
      omega
    · by_cases h2 : strLt k k0 = true
      · have hnone : alGet k rest = none := by
          apply alGet_none_of_all_lt
          intro p hp
          exact strLt_trans h2 (hbound p.1 (List.mem_map.mpr ⟨p, hp, rfl⟩))
        simp only [alSet, if_neg h1, if_pos h2, alGet_cons, List.map_cons,
          List.sum_cons, if_neg h1, hnone]
        omega
      · have := ih htail
        simp only [alSet, if_neg h1, if_neg h2, alGet_cons, List.map_cons,
          List.sum_cons, if_neg h1]
        cases hg : alGet k rest with
        | none => rw [hg] at this; omega
        | some o => rw [hg] at this; omega

/-! ## The structural invariant of built trees -/

@[simp]
theorem wfT_mk (c : String) (k : ℤ) (e : Bool) (ch : List (String × RNode)) :
    wfT (.mk c k e ch) = (sortedKeysB (ch.map (fun p => p.1)) && wfKidsT ch) := by
  rw [wfT]

@[simp]
theorem wfKidsT_nil : wfKidsT [] = true := by rw [wfKidsT]

@[simp]
theorem wfKidsT_cons (k : String) (v : RNode) (rest : List (String × RNode)) :
    wfKidsT ((k, v) :: rest) = (entryOK k v && wfT v && wfKidsT rest) := by
  rw [wfKidsT]

theorem wfKidsT_mem {l : List (String × RNode)} {k : String} {v : RNode}
    (h : wfKidsT l = true) (hm : (k, v) ∈ l) :
    entryOK k v = true ∧ wfT v = true := by
  induction l with
  | nil => simp at hm
  | cons q rest ih =>
    obtain ⟨k0, v0⟩ := q
    rw [wfKidsT_cons] at h
    obtain ⟨⟨h1, h2⟩, h3⟩ := by simpa [Bool.and_eq_true_iff] using h
    rcases List.mem_cons.mp hm with hq | hq
    · obtain ⟨rfl, rfl⟩ := Prod.mk.inj hq
      exact ⟨h1, h2⟩
    · exact ih h3 hq

theorem wfKidsT_alSet {l : List (String × RNode)} {k : String} {v : RNode}
    (h : wfKidsT l = true) (he : entryOK k v = true) (hw : wfT v = true) :
    wfKidsT (alSet k v l) = true := by
  induction l with
  | nil => simp [alSet, he, hw]
  | cons q rest ih =>
    obtain ⟨k0, v0⟩ := q
    rw [wfKidsT_cons] at h
    obtain ⟨⟨h1, h2⟩, h3⟩ := by simpa [Bool.and_eq_true_iff] using h
    by_cases e1 : k = k0
    · subst e1
      simp [alSet, he, hw, h3]
    · by_cases e2 : strLt k k0 = true
      · simp [alSet, e1, e2, he, hw, h1, h2, h3]
      · simp [alSet, e1, e2, h1, h2, ih h3]

theorem addClades_clade (n : RNode) (q : List String) (w : ℤ) :
    (addClades n q w).clade = n.clade := by
  cases q <;> rfl

theorem addClades_count (n : RNode) (q : List String) (w : ℤ) :
    (addClades n q w).count = n.count + w := by
  cases q <;> rfl

theorem addClades_isEnd (n : RNode) (q : List String) (w : ℤ) :
    (addClades n q w).isEnd = n.isEnd := by
  cases q <;> rfl

theorem addClades_nil (n : RNode) (w : ℤ) :
    addClades n [] w = .mk n.clade (n.count + w) n.isEnd (alSet ENDMARK endNode n.children) :=
  rfl

theorem addClades_cons (n : RNode) (c : String) (rest : List String) (w : ℤ) :
    addClades n (c :: rest) w =
      .mk n.clade (n.count + w) n.isEnd
        (alSet c
          (addClades (match alGet c n.children with
            | some ch => ch
            | none => newNode c) rest w)
          n.children) :=
  rfl

theorem entryOK_end : entryOK ENDMARK endNode = true := by decide

theorem entryOK_real {c : String} (hc : c ≠ ENDMARK) {v : RNode}
    (hv : v.isEnd = false) : entryOK c v = true := by
  simp [entryOK, hv, hc]

theorem wfT_endNode : wfT endNode = true := by decide

theorem wfT_newNode (c : String) : wfT (newNode c) = true := by
  simp [newNode]

theorem wfT_addClades {q : List String} (hq : ENDMARK ∉ q) :
    ∀ {n : RNode}, wfT n = true → ∀ (w : ℤ), wfT (addClades n q w) = true := by
  induction q with
  | nil =>
    intro n hn w
    obtain ⟨c, k, e, ch⟩ := n
    rw [wfT_mk] at hn
    obtain ⟨h1, h2⟩ := Bool.and_eq_true_iff.mp hn
    rw [addClades_nil]
    simp only [RNode.children_mk, RNode.clade_mk, RNode.count_mk, RNode.isEnd_mk, wfT_mk]
    exact Bool.and_eq_true_iff.mpr
      ⟨sortedKeysB_alSet h1 _ _, wfKidsT_alSet h2 entryOK_end wfT_endNode⟩
  | cons c rest ih =>
    intro n hn w
    have hc : c ≠ ENDMARK := fun hx => hq (hx ▸ List.mem_cons_self _ _)
    have hrest : ENDMARK ∉ rest := fun hx => hq (List.mem_cons_of_mem _ hx)
    obtain ⟨c0, k, e, ch⟩ := n
    rw [wfT_mk] at hn
    obtain ⟨h1, h2⟩ := Bool.and_eq_true_iff.mp hn
    rw [addClades_cons]
    simp only [RNode.children_mk, RNode.clade_mk, RNode.count_mk, RNode.isEnd_mk, wfT_mk]
    have hchild : ∀ m : RNode,
        (match alGet c (RNode.mk c0 k e ch).children with
          | some x => x
          | none => newNode c) = m →
        wfT m = true ∧ m.isEnd = false := by
      intro m hm
      simp only [RNode.children_mk] at hm
      cases hg : alGet c ch with
      | some x =>
        rw [hg] at hm
        subst hm
        obtain ⟨he, hw⟩ := wfKidsT_mem h2 (alGet_mem hg)
        refine ⟨hw, ?_⟩
        have hb : (c == ENDMARK) = false := by simpa using hc
        simp only [entryOK, hb, Bool.and_eq_true_iff] at he
        simpa using he.1
      | none =>
        rw [hg] at hm
        subst hm
        exact ⟨wfT_newNode c, rfl⟩
    obtain ⟨hw, hie⟩ := hchild _ rfl
    have hwX := ih hrest hw w
    refine Bool.and_eq_true_iff.mpr ⟨sortedKeysB_alSet h1 _ _, wfKidsT_alSet h2 ?_ hwX⟩
    exact entryOK_real hc (by rw [addClades_isEnd]; exact hie)

/-! ## Facts about built trees as a whole -/

theorem foldlAdd_root_isEnd (recs : List RecT) :
    ∀ t : PyTree,
      ((recs.foldl (fun t r => t.add r.1 r.2) t).root).isEnd = t.root.isEnd := by
  induction recs with
  | nil => intro t; rfl
  | cons r rest ih =>
    intro t
    rw [List.foldl_cons, ih]
    exact addClades_isEnd _ _ _

theorem buildTree_root_isEnd (recs : List RecT) :
    (buildTree recs).root.isEnd = false :=
  foldlAdd_root_isEnd recs treeNew

theorem foldlAdd_root_count (recs : List RecT) :
    ∀ t : PyTree,
      ((recs.foldl (fun t r => t.add r.1 r.2) t).root).count =
        t.root.count + (recs.map (fun r => r.2)).sum := by
  induction recs with
  | nil => intro t; simp
  | cons r rest ih =>
    intro t
    rw [List.foldl_cons, ih]
    have : ((t.add r.1 r.2).root).count = t.root.count + r.2 := addClades_count _ _ _
    rw [this]
    simp [add_assoc]

theorem foldlAdd_wfT (recs : List RecT) :
    ∀ t : PyTree, (∀ r ∈ recs, ENDMARK ∉ r.1) → wfT t.root = true →
      wfT ((recs.foldl (fun t r => t.add r.1 r.2) t).root) = true := by
  induction recs with
  | nil => intro t _ h; exact h
  | cons r rest ih =>
    intro t hd h
    rw [List.foldl_cons]
    exact ih _ (fun q hq => hd q (List.mem_cons_of_mem _ hq))
      (wfT_addClades (hd r (List.mem_cons_self _ _)) h _)

theorem wfT_buildTree {recs : List RecT} (h : dollarFree recs) :
    wfT (buildTree recs).root = true :=
  foldlAdd_wfT recs treeNew h (wfT_newNode START)

@[simp]
theorem lookupPath_nil (n : RNode) : lookupPath n [] = some n := rfl

theorem lookupPath_cons (n : RNode) (c : String) (rest : List String) :
    lookupPath n (c :: rest) =
      match alGet c n.children with
      | some m => lookupPath m rest
      | none => none := rfl

theorem lookupPath_wfT (p : List String) :
    ∀ t n : RNode, wfT t = true → lookupPath t p = some n → wfT n = true := by
  induction p with
  | nil =>
    intro t n hw h
    obtain rfl : t = n := Option.some.inj h
    exact hw
  | cons c rest ih =>
    intro t n hw h
    rw [lookupPath_cons] at h
    cases hg : alGet c t.children with
    | none => rw [hg] at h; exact absurd h (by simp)
    | some m =>
      rw [hg] at h
      obtain ⟨c0, k, e, ch⟩ := t
      rw [wfT_mk] at hw
      obtain ⟨h1, h2⟩ := Bool.and_eq_true_iff.mp hw
      exact ih m n (wfKidsT_mem h2 (alGet_mem hg)).2 h

theorem lookupPath_end_props (p : List String) :
    ∀ t n : RNode, wfT t = true → t.isEnd = false → lookupPath t p = some n →
      n.isEnd = true → n.count = 1 := by
  induction p with
  | nil =>
    intro t n _ hie h he
    obtain rfl : t = n := Option.some.inj h
    rw [hie] at he
    exact absurd he (by simp)
  | cons c rest ih =>
    intro t n hw hie h he
    rw [lookupPath_cons] at h
    cases hg : alGet c t.children with
    | none => rw [hg] at h; exact absurd h (by simp)
    | some m =>
      rw [hg] at h
      obtain ⟨c0, k, e, ch⟩ := t
      rw [wfT_mk] at hw
      obtain ⟨h1, h2⟩ := Bool.and_eq_true_iff.mp hw
      obtain ⟨hok, hwm⟩ := wfKidsT_mem h2 (alGet_mem hg)
      cases hme : m.isEnd with
      | false => exact ih m n hwm hme h he
      | true =>
        have hcount : m.count = 1 ∧ m.children = [] := by
          simp only [entryOK, hme, Bool.and_eq_true_iff] at hok
          have hx := hok.2
          simp only [Bool.not_true, Bool.false_or, Bool.and_eq_true_iff] at hx
          exact ⟨by simpa using hx.1, by simpa [List.isEmpty_iff] using hx.2⟩
        cases rest with
        | nil =>
          obtain rfl : m = n := Option.some.inj h
          exact hcount.1
        | cons c2 r2 =>
          have h' : lookupPath m (c2 :: r2) = some n := h
          rw [lookupPath_cons, hcount.2] at h'
          exact absurd h' (by simp [alGet])

/-! ## Claim C3: the root's weight is the total input weight -/

/-- C3: for every sequence of `add(path, weight)` calls, the root node's
weight equals the sum of all input weights.  (`add_clades` increments the
count of every node it visits, and it always visits the root.) -/
theorem c3_root_weight_is_total_input_weight (recs : List RecT) :
    (buildTree recs).root.count = (recs.map (fun r => r.2)).sum := by
  have h := foldlAdd_root_count recs treeNew
  simpa [buildTree, treeNew, newNode] using h

/-! ## Claim C10: weights of end-marker children -/

/-- C10 as stated is false: it quantifies over every sequence of `add` calls,
but when a record's path contains the reserved `END` marker `'$'` as a
segment, `add_clades` walks *into* an existing `EndNode` (its key equals the
segment) and increments its count.  After `add(["A"], 1)` followed by
`add(["A", "$"], 2)`, the end-marker child of node `A` is an `EndNode` with
count `3`, not `1`. -/
theorem c10_counterexample :
    (lookupPath (buildTree [(["A"], 1), (["A", "$"], 2)]).root ["A", "$"]).map
        (fun n => (n.isEnd, n.count)) = some (true, 3) ∧ (3 : ℤ) ≠ 1 :=
  ⟨rfl, by decide⟩

/-- C10 (amended): after any sequence of `add(path, weight)` calls in which no
path segment equals the reserved end marker `'$'`, every end-marker
(`EndNode`) in the tree has weight exactly 1 — `Tree.add` installs a fresh
`EndNode` with count 1 each time a path terminates at a node, replacing any
existing end marker, so the terminator's weight never reflects the
terminating record's weight or the number of records that terminated there. -/
theorem c10_end_marker_count_one {recs : List RecT} (hd : dollarFree recs)
    {p : List String} {n : RNode}
    (hl : lookupPath (buildTree recs).root p = some n) (he : n.isEnd = true) :
    n.count = 1 :=
  lookupPath_end_props p _ n (wfT_buildTree hd) (buildTree_root_isEnd recs) hl he

/-- Witness for C10 (amended): in the tree built from `add(["A"], 3)`, the
end marker below `A` is found with count exactly 1. -/
theorem c10_end_marker_count_one_witness :
    dollarFree [(["A"], (3 : ℤ))] ∧ endNode.isEnd = true ∧ endNode.count = 1 :=
  ⟨by decide, rfl,
    @c10_end_marker_count_one [(["A"], 3)] (by decide) ["A", ENDMARK] endNode
      rfl rfl⟩

/-! ## Claim C2: the per-node weight accounting invariant -/

theorem entryOK_end_isEnd {o : RNode} (h : entryOK ENDMARK o = true) :
    o.isEnd = true := by
  simp only [entryOK, Bool.and_eq_true_iff] at h
  simpa using h.1

theorem entryOK_real_isEnd {c : String} (hc : c ≠ ENDMARK) {o : RNode}
    (h : entryOK c o = true) : o.isEnd = false := by
  have hb : (c == ENDMARK) = false := by simpa using hc
  simp only [entryOK, hb, Bool.and_eq_true_iff] at h
  simpa using h.1

theorem sumReal_alSet_end {ch : List (String × RNode)}
    (hs : sortedKeysB (ch.map (fun p => p.1)) = true) (hk : wfKidsT ch = true) :
    ((alSet ENDMARK endNode ch).map (fun p => realCount p.2)).sum =
      (ch.map (fun p => realCount p.2)).sum := by
  rw [sum_map_alSet realCount hs]
  cases hg : alGet ENDMARK ch with
  | none => simp [realCount, endNode]
  | some o =>
    have ho : o.isEnd = true :=
      entryOK_end_isEnd (wfKidsT_mem hk (alGet_mem hg)).1
    simp [realCount, ho, endNode]

theorem sumReal_alSet_real {ch : List (String × RNode)} {c : String}
    (hs : sortedKeysB (ch.map (fun p => p.1)) = true) (hk : wfKidsT ch = true)
    (hc : c ≠ ENDMARK) {X : RNode} (hX : X.isEnd = false) :
    ((alSet c X ch).map (fun p => realCount p.2)).sum =
      (ch.map (fun p => realCount p.2)).sum + X.count -
        (match alGet c ch with | some o => o.count | none => 0) := by
  rw [sum_map_alSet realCount hs]
  have hXr : realCount X = X.count := by simp [realCount, hX]
  cases hg : alGet c ch with
  | none => simp [hXr]
  | some o =>
    have ho : o.isEnd = false :=
      entryOK_real_isEnd hc (wfKidsT_mem hk (alGet_mem hg)).1
    have hor : realCount o = o.count := by simp [realCount, ho]
    simp only [hg]
    rw [hXr, hor]

theorem addClades_inv (q : List String) :
    ∀ (t : RNode) (w : ℤ) (f : List String → ℤ),
      ENDMARK ∉ q → wfT t = true →
      (∀ p : List String, ENDMARK ∉ p →
        (∀ n, lookupPath t p = some n → n.count = sumRealChildren n + f p) ∧
        (lookupPath t p = none → f p = 0)) →
      ∀ p : List String, ENDMARK ∉ p →
        (∀ n, lookupPath (addClades t q w) p = some n →
          n.count = sumRealChildren n + (f p + if q = p then w else 0)) ∧
        (lookupPath (addClades t q w) p = none →
          f p + (if q = p then w else 0) = 0) := by
  induction q with
  | nil =>
    intro t w f _ hwf hf p hp
    obtain ⟨c0, k, e, ch⟩ := t
    rw [wfT_mk] at hwf
    obtain ⟨hs, hk⟩ := Bool.and_eq_true_iff.mp hwf
    cases p with
    | nil =>
      refine ⟨?_, ?_⟩
      · intro n hn
        obtain rfl := (Option.some.inj hn).symm
        have hold := (hf [] (by simp)).1 _ rfl
        simp only [sumRealChildren, RNode.count_mk, RNode.children_mk] at hold ⊢
        rw [addClades_nil]
        simp only [RNode.count_mk, RNode.children_mk, RNode.clade_mk, RNode.isEnd_mk]
        rw [sumReal_alSet_end hs hk]
        simp only [if_true, eq_self_iff_true]
        omega
      · intro hnone
        exact absurd hnone (by simp)
    | cons c rest =>
      have hc : c ≠ ENDMARK := fun hx => hp (hx ▸ List.mem_cons_self _ _)
      have hlook : lookupPath (addClades (RNode.mk c0 k e ch) [] w) (c :: rest) =
          lookupPath (RNode.mk c0 k e ch) (c :: rest) := by
        rw [addClades_nil, lookupPath_cons, lookupPath_cons]
        simp only [RNode.children_mk]
        rw [alGet_alSet_ne hc]
      rw [hlook]
      have hne : ([] : List String) ≠ c :: rest := by simp
      obtain ⟨ha, hb⟩ := hf (c :: rest) hp
      exact ⟨fun n hn => by rw [if_neg hne]; simpa using ha n hn,
        fun hn => by rw [if_neg hne]; simpa using hb hn⟩
  | cons c r ih =>
    intro t w f hq hwf hf p hp
    have hc : c ≠ ENDMARK := fun hx => hq (hx ▸ List.mem_cons_self _ _)
    have hr : ENDMARK ∉ r := fun hx => hq (List.mem_cons_of_mem _ hx)
    obtain ⟨c0, k, e, ch⟩ := t
    rw [wfT_mk] at hwf
    obtain ⟨hs, hk⟩ := Bool.and_eq_true_iff.mp hwf
    -- the child the recursion descends into, and its invariant
    set child0 : RNode := (match alGet c ch with
      | some x => x
      | none => newNode c) with hchild0
    have hchild_wf : wfT child0 = true ∧ child0.isEnd = false := by
      rw [hchild0]
      cases hg : alGet c ch with
      | some x =>
        obtain ⟨hok, hw⟩ := wfKidsT_mem hk (alGet_mem hg)
        exact ⟨hw, entryOK_real_isEnd hc hok⟩
      | none => exact ⟨wfT_newNode c, rfl⟩
    have hchild_inv : ∀ p' : List String, ENDMARK ∉ p' →
        (∀ n, lookupPath child0 p' = some n →
          n.count = sumRealChildren n + f (c :: p')) ∧
        (lookupPath child0 p' = none → f (c :: p') = 0) := by
      intro p' hp'
      have hcp' : ENDMARK ∉ c :: p' := by
        intro hx
        rcases List.mem_cons.mp hx with hx | hx
        · exact hc hx.symm
        · exact hp' hx
      have hstep := hf (c :: p') hcp'
      rw [lookupPath_cons] at hstep
      simp only [RNode.children_mk] at hstep
      rw [hchild0]
      cases hg : alGet c ch with
      | some x =>
        rw [hg] at hstep
        exact hstep
      | none =>
        rw [hg] at hstep
        have hzero : f (c :: p') = 0 := hstep.2 rfl
        cases p' with
        | nil =>
          refine ⟨?_, fun hx => absurd hx (by simp)⟩
          intro n hn
          obtain rfl := (Option.some.inj hn).symm
          simp [newNode, sumRealChildren, hzero]
        | cons c2 r2 =>
          refine ⟨?_, fun _ => hzero⟩
          intro n hn
          rw [lookupPath_cons] at hn
          simp only [newNode, RNode.children_mk, alGet_nil] at hn
          exact absurd hn (by simp)
    have hX := ih child0 w (fun p' => f (c :: p')) hr hchild_wf.1 hchild_inv
    -- now the three shapes of p
    cases p with
    | nil =>
      refine ⟨?_, fun hx => absurd hx (by simp)⟩
      intro n hn
      rw [addClades_cons] at hn
      obtain rfl := (Option.some.inj hn).symm
      have hold := (hf [] (by simp)).1 _ rfl
      simp only [sumRealChildren, RNode.count_mk, RNode.children_mk,
        RNode.clade_mk, RNode.isEnd_mk] at hold ⊢
      have hXend : (addClades child0 r w).isEnd = false := by
        rw [addClades_isEnd]; exact hchild_wf.2
      rw [sumReal_alSet_real hs hk hc hXend]
      have hXcount : (addClades child0 r w).count = child0.count + w :=
        addClades_count _ _ _
      have hoc : child0.count =
          (match alGet c ch with | some o => o.count | none => 0) := by
        rw [hchild0]
        cases hg : alGet c ch with
        | some x => rfl
        | none => rfl
      rw [if_neg (by simp : (c :: r : List String) ≠ [])]
      omega
    | cons c' rest' =>
      by_cases hcc : c' = c
      · subst hcc
        have hgetX : lookupPath (addClades (RNode.mk c0 k e ch) (c' :: r) w) (c' :: rest') =
            lookupPath (addClades child0 r w) rest' := by
          rw [addClades_cons, lookupPath_cons]
          simp only [RNode.children_mk]
          rw [alGet_alSet_self]
        rw [hgetX]
        have hrest' : ENDMARK ∉ rest' := fun hx => hp (List.mem_cons_of_mem _ hx)
        obtain ⟨ha, hb⟩ := hX rest' hrest'
        have hiff : ((c' :: r : List String) = c' :: rest') ↔ (r = rest') := by
          constructor
          · intro hx; exact (List.cons.inj hx).2
          · intro hx; rw [hx]
        refine ⟨?_, ?_⟩
        · intro n hn
          have := ha n hn
          by_cases hre : r = rest'
          · rw [if_pos hre] at this
            rw [if_pos (hiff.mpr hre)]
            exact this
          · rw [if_neg hre] at this
            rw [if_neg (fun hx => hre (hiff.mp hx))]
            exact this
        · intro hn
          have := hb hn
          by_cases hre : r = rest'
          · rw [if_pos hre] at this
            rw [if_pos (hiff.mpr hre)]
            exact this
          · rw [if_neg hre] at this
            rw [if_neg (fun hx => hre (hiff.mp hx))]
            exact this
      · have hlook : lookupPath (addClades (RNode.mk c0 k e ch) (c :: r) w) (c' :: rest') =
            lookupPath (RNode.mk c0 k e ch) (c' :: rest') := by
          rw [addClades_cons, lookupPath_cons, lookupPath_cons]
          simp only [RNode.children_mk]
          rw [alGet_alSet_ne hcc]
        rw [hlook]
        have hne : (c :: r : List String) ≠ c' :: rest' := by
          intro hx
          exact hcc ((List.cons.inj hx).1).symm
        obtain ⟨ha, hb⟩ := hf (c' :: rest') hp
        exact ⟨fun n hn => by rw [if_neg hne]; simpa using ha n hn,
          fun hn => by rw [if_neg hne]; simpa using hb hn⟩

theorem termWeight_cons (r : RecT) (recs : List RecT) (p : List String) :
    termWeight (r :: recs) p = (if r.1 = p then r.2 else 0) + termWeight recs p := by
  by_cases hr : r.1 = p
  · simp [termWeight, List.filter_cons, hr]
  · simp [termWeight, List.filter_cons, hr]

theorem foldlAdd_inv (recs : List RecT) :
    ∀ (t : PyTree) (f : List String → ℤ), dollarFree recs → wfT t.root = true →
      (∀ p : List String, ENDMARK ∉ p →
        (∀ n, lookupPath t.root p = some n → n.count = sumRealChildren n + f p) ∧
        (lookupPath t.root p = none → f p = 0)) →
      ∀ p : List String, ENDMARK ∉ p →
        (∀ n, lookupPath ((recs.foldl (fun t r => t.add r.1 r.2) t).root) p = some n →
          n.count = sumRealChildren n + (f p + termWeight recs p)) ∧
        (lookupPath ((recs.foldl (fun t r => t.add r.1 r.2) t).root) p = none →
          f p + termWeight recs p = 0) := by
  induction recs with
  | nil =>
    intro t f _ _ hf p hp
    have h0 : termWeight [] p = 0 := rfl
    obtain ⟨ha, hb⟩ := hf p hp
    exact ⟨fun n hn => by rw [h0, add_zero]; exact ha n hn,
      fun hn => by rw [h0, add_zero]; exact hb hn⟩
  | cons r rest ih =>
    intro t f hd hw hf p hp
    rw [List.foldl_cons]
    have hd1 : ENDMARK ∉ r.1 := hd r (List.mem_cons_self _ _)
    have hdrest : dollarFree rest := fun x hx => hd x (List.mem_cons_of_mem _ hx)
    have hstep := addClades_inv r.1 t.root r.2 f hd1 hw hf
    have hw' : wfT ((t.add r.1 r.2).root) = true := wfT_addClades hd1 hw _
    obtain ⟨ha, hb⟩ :=
      ih (t.add r.1 r.2) (fun p => f p + if r.1 = p then r.2 else 0)
        hdrest hw' hstep p hp
    have harith :
        (f p + (if r.1 = p then r.2 else 0)) + termWeight rest p =
          f p + termWeight (r :: rest) p := by
      rw [termWeight_cons]
      ring
    exact ⟨fun n hn => by rw [← harith]; exact ha n hn,
      fun hn => by rw [← harith]; exact hb hn⟩

/-! ## Claim C2: node weight = sum of non-end children + terminating weight -/

/-- C2 as stated is false: it quantifies over every sequence of `add` calls,
but a record whose path contains the reserved `END` marker `'$'` as a segment
deposits its weight inside the end-marker child.  After `add(["A"], 1)` and
`add(["A", "$"], 2)`, node `A` has weight 3, yet its only child is the end
marker (sum of non-end children weights 0) and the weight terminating exactly
at `A` is 1, so `3 ≠ 0 + 1`. -/
theorem c2_counterexample :
    (lookupPath (buildTree [(["A"], 1), (["A", "$"], 2)]).root ["A"]).map
        (fun n => (n.count, sumRealChildren n,
          termWeight [(["A"], 1), (["A", "$"], 2)] ["A"])) = some (3, 0, 1) ∧
      (3 : ℤ) ≠ 0 + 1 :=
  ⟨rfl, by decide⟩

/-- C2 (amended): for every sequence of `add(path, weight)` calls in which no
path segment equals the reserved end marker `'$'`, every node of the
resulting tree satisfies: its weight equals the sum of its children's weights
— the end-marker child, which carries weight 1 and merely signals
termination, not counted — plus the weight contributed directly by records
terminating exactly at that node. -/
theorem c2_node_weight_accounting {recs : List RecT} {p : List String}
    {n : RNode} (hd : dollarFree recs) (hp : ENDMARK ∉ p)
    (hl : lookupPath (buildTree recs).root p = some n) :
    n.count = sumRealChildren n + termWeight recs p := by
  have hbase : ∀ p : List String, ENDMARK ∉ p →
      (∀ m, lookupPath treeNew.root p = some m →
        m.count = sumRealChildren m + (fun _ => (0 : ℤ)) p) ∧
      (lookupPath treeNew.root p = none → (fun _ => (0 : ℤ)) p = 0) := by
    intro p _
    refine ⟨?_, fun _ => rfl⟩
    intro m hm
    cases p with
    | nil =>
      obtain rfl := (Option.some.inj hm).symm
      simp [treeNew, newNode, sumRealChildren]
    | cons c rest =>
      rw [lookupPath_cons] at hm
      simp only [treeNew, newNode, RNode.children_mk, alGet_nil] at hm
      exact absurd hm (by simp)
  have := (foldlAdd_inv recs treeNew (fun _ => 0) hd (wfT_newNode START)
    hbase p hp).1 n hl
  simpa using this

/-- Witness for C2 (amended): in the tree of `add(["A"], 3); add(["A","B"], 2)`
the node `A` has weight 5, non-end children weight 2 (node `B`), and
terminating weight 3; the theorem instantiates to `5 = 2 + 3`. -/
theorem c2_node_weight_accounting_witness :
    dollarFree [(["A"], (3 : ℤ)), (["A", "B"], 2)] ∧ ENDMARK ∉ ["A"] ∧
      (RNode.mk "A" 5 false
          [("$", endNode), ("B", RNode.mk "B" 2 false [("$", endNode)])]).count =
        sumRealChildren (RNode.mk "A" 5 false
          [("$", endNode), ("B", RNode.mk "B" 2 false [("$", endNode)])]) +
          termWeight [(["A"], (3 : ℤ)), (["A", "B"], 2)] ["A"] :=
  ⟨by decide, by decide,
    @c2_node_weight_accounting [(["A"], 3), (["A", "B"], 2)] ["A"]
      (RNode.mk "A" 5 false
        [("$", endNode), ("B", RNode.mk "B" 2 false [("$", endNode)])])
      (by decide) (by decide) rfl⟩

/-! ## Claim C5: insertion-order insensitivity -/

theorem setAdd_comm (s : List String) (x y : String) :
    setAdd (setAdd s x) y = setAdd (setAdd s y) x := by
  by_cases hxy : x = y
  · rw [hxy]
  · induction s with
    | nil =>
      rcases strLt_total hxy with hlt | hlt
      · simp [setAdd, hxy, Ne.symm hxy, hlt, strLt_asymm hlt]
      · simp [setAdd, hxy, Ne.symm hxy, hlt, strLt_asymm hlt]
    | cons z rest ih =>
      by_cases ex : x = z
      · subst ex
        rcases strLt_total hxy with hlt | hlt
        · simp [setAdd, hxy, Ne.symm hxy, hlt, strLt_asymm hlt]
        · simp [setAdd, hxy, Ne.symm hxy, hlt, strLt_asymm hlt]
      · by_cases ey : y = z
        · subst ey
          rcases strLt_total hxy with hlt | hlt
          · simp [setAdd, hxy, Ne.symm hxy, ex, hlt, strLt_asymm hlt]
          · simp [setAdd, hxy, Ne.symm hxy, ex, hlt, strLt_asymm hlt]
        · by_cases sx : strLt x z = true
          · by_cases sy : strLt y z = true
            · rcases strLt_total hxy with hlt | hlt
              · simp [setAdd, hxy, Ne.symm hxy, ex, ey, sx, sy, hlt, strLt_asymm hlt]
              · simp [setAdd, hxy, Ne.symm hxy, ex, ey, sx, sy, hlt, strLt_asymm hlt]
            · have hlt : strLt x y = true := by
                rcases strLt_total hxy with hx | hx
                · exact hx
                · exact absurd (strLt_trans hx sx) sy
              simp [setAdd, hxy, Ne.symm hxy, ex, ey, sx, sy, hlt, strLt_asymm hlt]
          · by_cases sy : strLt y z = true
            · have hlt : strLt y x = true := by
                rcases strLt_total hxy with hx | hx
                · exact absurd (strLt_trans hx sy) sx
                · exact hx
              simp [setAdd, hxy, Ne.symm hxy, ex, ey, sx, sy, hlt, strLt_asymm hlt]
            · simp [setAdd, hxy, Ne.symm hxy, ex, ey, sx, sy, ih]

theorem foldl_setAdd_out (l : List String) :
    ∀ (s : List String) (x : String),
      l.foldl setAdd (setAdd s x) = setAdd (l.foldl setAdd s) x := by
  induction l with
  | nil => intro s x; rfl
  | cons z rest ih =>
    intro s x
    rw [List.foldl_cons, List.foldl_cons, setAdd_comm, ih]

theorem foldl_setAdd_comm (l1 l2 : List String) (s : List String) :
    l2.foldl setAdd (l1.foldl setAdd s) = l1.foldl setAdd (l2.foldl setAdd s) := by
  induction l1 generalizing s with
  | nil => rfl
  | cons z rest ih =>
    rw [List.foldl_cons, List.foldl_cons, ih, foldl_setAdd_out]

theorem addClades_swap (pa : List String) :
    ENDMARK ∉ pa → ∀ pb : List String, ENDMARK ∉ pb →
      ∀ (n : RNode) (wa wb : ℤ),
        addClades (addClades n pa wa) pb wb =
          addClades (addClades n pb wb) pa wa := by
  induction pa with
  | nil =>
    intro _ pb hpb n wa wb
    cases pb with
    | nil =>
      obtain ⟨c0, k, e, ch⟩ := n
      rw [addClades_nil, addClades_nil, addClades_nil, addClades_nil]
      simp only [RNode.clade_mk, RNode.count_mk, RNode.isEnd_mk, RNode.children_mk]
      rw [alSet_alSet_self]
      congr 1
      omega
    | cons c2 r2 =>
      have hc2 : c2 ≠ ENDMARK := fun hx => hpb (hx ▸ List.mem_cons_self _ _)
      obtain ⟨c0, k, e, ch⟩ := n
      rw [addClades_nil, addClades_cons, addClades_cons, addClades_nil]
      simp only [RNode.clade_mk, RNode.count_mk, RNode.isEnd_mk, RNode.children_mk]
      rw [alGet_alSet_ne hc2]
      rw [alSet_comm (fun hx => hc2 hx.symm)]
      congr 1
      omega
  | cons c1 r1 ih =>
    intro hpa pb hpb n wa wb
    have hc1 : c1 ≠ ENDMARK := fun hx => hpa (hx ▸ List.mem_cons_self _ _)
    have hr1 : ENDMARK ∉ r1 := fun hx => hpa (List.mem_cons_of_mem _ hx)
    cases pb with
    | nil =>
      obtain ⟨c0, k, e, ch⟩ := n
      rw [addClades_cons, addClades_nil, addClades_nil, addClades_cons]
      simp only [RNode.clade_mk, RNode.count_mk, RNode.isEnd_mk, RNode.children_mk]
      rw [alGet_alSet_ne hc1]
      rw [alSet_comm hc1]
      congr 1
      omega
    | cons c2 r2 =>
      have hc2 : c2 ≠ ENDMARK := fun hx => hpb (hx ▸ List.mem_cons_self _ _)
      have hr2 : ENDMARK ∉ r2 := fun hx => hpb (List.mem_cons_of_mem _ hx)
      obtain ⟨c0, k, e, ch⟩ := n
      by_cases hcc : c1 = c2
      · subst hcc
        rw [addClades_cons, addClades_cons, addClades_cons, addClades_cons]
        simp only [RNode.clade_mk, RNode.count_mk, RNode.isEnd_mk, RNode.children_mk]
        rw [alGet_alSet_self, alGet_alSet_self, alSet_alSet_self, alSet_alSet_self]
        rw [ih hr1 r2 hr2]
        congr 1
        omega
      · rw [addClades_cons, addClades_cons, addClades_cons, addClades_cons]
        simp only [RNode.clade_mk, RNode.count_mk, RNode.isEnd_mk, RNode.children_mk]
        rw [alGet_alSet_ne hcc, alGet_alSet_ne (fun hx => hcc hx.symm)]
        rw [alSet_comm (fun hx => hcc hx.symm)]
        congr 1
        omega

theorem treeAdd_swap {a b : RecT} (ha : ENDMARK ∉ a.1) (hb : ENDMARK ∉ b.1)
    (t : PyTree) :
    (t.add a.1 a.2).add b.1 b.2 = (t.add b.1 b.2).add a.1 a.2 := by
  simp only [PyTree.add]
  rw [addClades_swap a.1 ha b.1 hb, foldl_setAdd_comm]

theorem foldlAdd_perm {l1 l2 : List RecT} (hperm : l1.Perm l2)
    (hd : dollarFree l1) :
    ∀ t : PyTree,
      l1.foldl (fun t r => t.add r.1 r.2) t =
        l2.foldl (fun t r => t.add r.1 r.2) t := by
  induction hperm with
  | nil => intro t; rfl
  | cons x h ih =>
    intro t
    rw [List.foldl_cons, List.foldl_cons]
    exact ih (fun r hr => hd r (List.mem_cons_of_mem _ hr)) _
  | swap x y l =>
    intro t
    rw [List.foldl_cons, List.foldl_cons, List.foldl_cons, List.foldl_cons]
    rw [treeAdd_swap (hd y (List.mem_cons_self _ _))
      (hd x (List.mem_cons_of_mem _ (List.mem_cons_self _ _)))]
  | trans h1 h2 ih1 ih2 =>
    intro t
    rw [ih1 hd t, ih2 (fun r hr => hd r (h1.mem_iff.mpr hr)) t]

/-- C5 (amended): building the tree from two record sequences that are
permutations of each other, where no path segment equals the reserved end
marker `'$'`, yields the *same tree*, hence identical angular ring-entry
structures — the same labels, sizes and offsets at every depth. -/
theorem c5_order_insensitive {l1 l2 : List RecT} (hperm : l1.Perm l2)
    (hd : dollarFree l1) :
    buildTree l1 = buildTree l2 ∧
      ringsClade (buildTree l1) = ringsClade (buildTree l2) := by
  have h : buildTree l1 = buildTree l2 := foldlAdd_perm hperm hd treeNew
  exact ⟨h, by rw [h]⟩

/-- Witness for C5 (amended): the two orders of `add(["A"],1); add(["B"],2)`
give the same tree and ring structure. -/
theorem c5_order_insensitive_witness :
    ([(["A"], (1 : ℤ)), (["B"], 2)] : List RecT).Perm
        [(["B"], (2 : ℤ)), (["A"], 1)] ∧
      dollarFree [(["A"], (1 : ℤ)), (["B"], 2)] ∧
      ringsClade (buildTree [(["A"], (1 : ℤ)), (["B"], 2)]) =
        ringsClade (buildTree [(["B"], (2 : ℤ)), (["A"], 1)]) :=
  ⟨by decide, by decide,
    (c5_order_insensitive (by decide) (by decide)).2⟩

/-- C5 as stated is false: when a record path contains the reserved `END`
marker `'$'` as a segment, the insertion order matters.  Adding
`(["A","$","B"], 1)` before `(["A"], 1)` lets the later terminating add
*replace* the `'$'`-keyed child (discarding the `B` subtree), while the
reverse order walks *into* the end marker and keeps `B`: the two orders give
different ring structures (the second has a tier-3 entry for `B`). -/
theorem c5_counterexample :
    ([(["A", "$", "B"], (1 : ℤ)), (["A"], 1)] : List RecT).Perm
        [(["A"], (1 : ℤ)), (["A", "$", "B"], 1)] ∧
      ringsClade (buildTree [(["A", "$", "B"], (1 : ℤ)), (["A"], 1)]) ≠
        ringsClade (buildTree [(["A"], (1 : ℤ)), (["A", "$", "B"], 1)]) := by
  refine ⟨by decide, ?_⟩
  have e1 : buildTree [(["A", "$", "B"], (1 : ℤ)), (["A"], 1)] =
      ⟨RNode.mk "^" 2 false [("A", RNode.mk "A" 2 false [("$", RNode.mk "$" 1 true [])])],
        ["$", "A", "B"]⟩ := rfl
  have e2 : buildTree [(["A"], (1 : ℤ)), (["A", "$", "B"], 1)] =
      ⟨RNode.mk "^" 2 false
          [("A", RNode.mk "A" 2 false
            [("$", RNode.mk "$" 2 true
              [("B", RNode.mk "B" 1 false [("$", RNode.mk "$" 1 true [])])])])],
        ["$", "A", "B"]⟩ := rfl
  have v1 : ringsClade (buildTree [(["A", "$", "B"], (1 : ℤ)), (["A"], 1)]) =
      .ok [(0, [("^", 1, 0)]), (1, [("A", 1, 0)])] := by
    rw [e1]
    show dfsNode onNodeClade _ 0 1 0 [] = _
    norm_num [dfsNode.eq_1, dfsKids.eq_1, dfsKids.eq_2, onNodeClade, tiersAppend,
      tGet, tSet]
  have v2 : ringsClade (buildTree [(["A"], (1 : ℤ)), (["A", "$", "B"], 1)]) =
      .ok [(0, [("^", 1, 0)]), (1, [("A", 1, 0)]), (3, [("B", 1/2, 0)])] := by
    rw [e2]
    show dfsNode onNodeClade _ 0 1 0 [] = _
    norm_num [dfsNode.eq_1, dfsKids.eq_1, dfsKids.eq_2, onNodeClade, tiersAppend,
      tGet, tSet]
  rw [v1, v2]
  intro hcontra
  simp at hcontra

/-! ## Claim C4: `Rings` construction always raises -/

theorem dfsKidsPy_classify (w : ℤ) (kids : List (String × RNode))
    (hIH : ∀ p ∈ kids, ∀ (d : ℕ) (s o : ℚ) (ts : Tiers),
      dfsNode onNodePy p.2 d s o ts = .error attrErrMsg ∨
        dfsNode onNodePy p.2 d s o ts = .error zeroDivMsg ∨
        (p.2.isEnd = true ∧ ∃ ts', dfsNode onNodePy p.2 d s o ts = .ok ts')) :
    ∀ (d : ℕ) (s o : ℚ) (ts : Tiers),
      dfsKids onNodePy w kids d s o ts = .error attrErrMsg ∨
        dfsKids onNodePy w kids d s o ts = .error zeroDivMsg ∨
        ∃ ts', dfsKids onNodePy w kids d s o ts = .ok ts' := by
  induction kids with
  | nil =>
    intro d s o ts
    right; right
    exact ⟨ts, by rw [dfsKids.eq_1]⟩
  | cons p rest ih =>
    intro d s o ts
    obtain ⟨k0, child⟩ := p
    rw [dfsKids.eq_2]
    by_cases hw : w = 0
    · right; left
      simp [hw]
    · rw [if_neg hw]
      rcases hIH (k0, child) (List.mem_cons_self _ _) (d + 1)
          (s * (child.count : ℚ) / (w : ℚ)) o ts with h | h | ⟨-, ts', h⟩
      · left; simp [h]
      · right; left; simp [h]
      · simp only [h]
        exact ih (fun q hq => hIH q (List.mem_cons_of_mem _ hq)) d s
          (o + s * (child.count : ℚ) / (w : ℚ)) ts'

theorem dfsPy_classify (n : RNode) (d : ℕ) (s o : ℚ) (ts : Tiers) :
    dfsNode onNodePy n d s o ts = .error attrErrMsg ∨
      dfsNode onNodePy n d s o ts = .error zeroDivMsg ∨
      (n.isEnd = true ∧ ∃ ts', dfsNode onNodePy n d s o ts = .ok ts') := by
  obtain ⟨c, k, e, ch⟩ := n
  have hkids := dfsKidsPy_classify k ch
    (fun p hp d' s' o' ts' => dfsPy_classify p.2 d' s' o' ts')
  rw [dfsNode.eq_1]
  rcases hkids d s o ts with h | h | ⟨ts', h⟩
  · left; simp [h]
  · right; left; simp [h]
  · have hga : RNode.getattr (RNode.mk c k e ch) "letter" = none := rfl
    cases e with
    | true =>
      right; right
      refine ⟨rfl, ts', ?_⟩
      simp [h, onNodePy]
    | false =>
      left
      simp [h, onNodePy, hga]
termination_by sizeOf n
decreasing_by
  have hlt := List.sizeOf_lt_of_mem hp
  have hp2 : sizeOf p.2 < sizeOf p := by
    obtain ⟨a, b⟩ := p
    simp only [Prod.mk.sizeOf_spec]
    omega
  simp only [RNode.mk.sizeOf_spec]
  omega

/-- C4 as stated is false in one detail: every `Rings(tree)` construction
does fail before producing anything, but not always with the attribute
error — a tree holding a zero-total-weight node with children (e.g. built
from the single record `add(["A"], 0)`) fails earlier, in the `_dfs` child
loop, with a `ZeroDivisionError`. -/
theorem c4_counterexample :
    ringsPy (buildTree [(["A"], (0 : ℤ))]) = .error zeroDivMsg ∧
      zeroDivMsg ≠ attrErrMsg := by
  refine ⟨?_, by decide⟩
  have e : buildTree [(["A"], (0 : ℤ))] =
      ⟨RNode.mk "^" 0 false [("A", RNode.mk "A" 0 false [("$", RNode.mk "$" 1 true [])])],
        ["A"]⟩ := rfl
  rw [e]
  show dfsNode onNodePy _ 0 1 0 [] = _
  norm_num [dfsNode.eq_1, dfsKids.eq_1, dfsKids.eq_2, onNodePy]

/-- C4 (amended): for every tree the script can build — including one built
from zero records — constructing `Rings(tree)` fails: with the attribute
error of `Rings._on_node` reading the nonexistent `node.letter` (`Node`
instances define only `clade`, `count` and `children`), except that a tree
containing a zero-total-weight node with children fails first with the
division by zero of the `_dfs` child loop.  In all cases the partition stage
never returns a result and no chart is ever produced for any input. -/
theorem c4_rings_always_fails (recs : List RecT) :
    ringsPy (buildTree recs) = .error attrErrMsg ∨
      ringsPy (buildTree recs) = .error zeroDivMsg := by
  rcases dfsPy_classify (buildTree recs).root 0 1 0 [] with h | h | ⟨he, -⟩
  · left; exact h
  · right; exact h
  · rw [buildTree_root_isEnd] at he
    exact absurd he (by simp)

/-! ## Claim C7: the empty-input run -/

/-- C7: the divide-by-zero in colour assignment is indeed never reached on
empty input (no clades means `_colour_for_clade` is never called, and the
diagram setup yields only the base text style), but the pipeline then fails
in `Rings` construction with the attribute error of C4 instead of completing
with an empty chart: the code crashes on every input, including the empty
one. -/
theorem c7_empty_input_pipeline_fails :
    setupStyles ((buildTree ([] : List RecT)).clades) = .ok [.textStyle] ∧
      pipelineE [] = .error attrErrMsg := by
  have h1 : setupStyles ((buildTree ([] : List RecT)).clades) = .ok [.textStyle] := rfl
  refine ⟨h1, ?_⟩
  have hga : RNode.getattr (RNode.mk "^" 0 false []) "letter" = none := rfl
  have h2 : ringsPy (buildTree ([] : List RecT)) = .error attrErrMsg := by
    show dfsNode onNodePy (RNode.mk "^" 0 false []) 0 1 0 [] = _
    norm_num [dfsNode.eq_1, dfsKids.eq_1, onNodePy, hga]
  simp [pipelineE, h1, h2]

/-! ## Claim C6: zero and negative weights -/

@[simp]
theorem noZeroDiv_mk (c : String) (k : ℤ) (e : Bool) (ch : List (String × RNode)) :
    noZeroDiv (.mk c k e ch) = ((ch.isEmpty || !(k == 0)) && noZeroDivKids ch) := by
  rw [noZeroDiv]

@[simp]
theorem noZeroDivKids_nil : noZeroDivKids [] = true := by rw [noZeroDivKids]

@[simp]
theorem noZeroDivKids_cons (k : String) (v : RNode) (rest : List (String × RNode)) :
    noZeroDivKids ((k, v) :: rest) = (noZeroDiv v && noZeroDivKids rest) := by
  rw [noZeroDivKids]

theorem dfsKidsClade_ok (w : ℤ) (kids : List (String × RNode))
    (hw : kids = [] ∨ w ≠ 0)
    (hIH : ∀ p ∈ kids, ∀ (d : ℕ) (s o : ℚ) (ts : Tiers), noZeroDiv p.2 = true →
      ∃ ts', dfsNode onNodeClade p.2 d s o ts = .ok ts')
    (hkids : noZeroDivKids kids = true) :
    ∀ (d : ℕ) (s o : ℚ) (ts : Tiers),
      ∃ ts', dfsKids onNodeClade w kids d s o ts = .ok ts' := by
  induction kids with
  | nil =>
    intro d s o ts
    exact ⟨ts, by rw [dfsKids.eq_1]⟩
  | cons p rest ih =>
    intro d s o ts
    obtain ⟨k0, child⟩ := p
    have hw' : w ≠ 0 := by
      rcases hw with hx | hx
      · exact absurd hx (by simp)
      · exact hx
    rw [noZeroDivKids_cons] at hkids
    obtain ⟨hchild, hrest⟩ := Bool.and_eq_true_iff.mp hkids
    obtain ⟨ts1, h1⟩ := hIH (k0, child) (List.mem_cons_self _ _) (d + 1)
      (s * (child.count : ℚ) / (w : ℚ)) o ts hchild
    obtain ⟨ts2, h2⟩ := ih (Or.inr hw')
      (fun q hq => hIH q (List.mem_cons_of_mem _ hq)) hrest d s
      (o + s * (child.count : ℚ) / (w : ℚ)) ts1
    refine ⟨ts2, ?_⟩
    rw [dfsKids.eq_2, if_neg hw']
    simp only [h1]
    exact h2

theorem sizeOf_child_lt {p : String × RNode} {n : RNode}
    (hp : p ∈ n.children) : sizeOf p.2 < sizeOf n := by
  obtain ⟨c, k, e, ch⟩ := n
  simp only [RNode.children_mk] at hp
  have hlt := List.sizeOf_lt_of_mem hp
  have hp2 : sizeOf p.2 < sizeOf p := by
    obtain ⟨a, b⟩ := p
    simp only [Prod.mk.sizeOf_spec]
    omega
  simp only [RNode.mk.sizeOf_spec]
  omega

theorem dfsCladeNode_ok_of (n : RNode)
    (hIH : ∀ p ∈ n.children, ∀ (d : ℕ) (s o : ℚ) (ts : Tiers),
      noZeroDiv p.2 = true → ∃ ts', dfsNode onNodeClade p.2 d s o ts = .ok ts')
    (hn : noZeroDiv n = true) (d : ℕ) (s o : ℚ) (ts : Tiers) :
    ∃ ts', dfsNode onNodeClade n d s o ts = .ok ts' := by
  obtain ⟨c, k, e, ch⟩ := n
  simp only [RNode.children_mk] at hIH
  rw [noZeroDiv_mk] at hn
  obtain ⟨h1, h2⟩ := Bool.and_eq_true_iff.mp hn
  have hw : ch = [] ∨ k ≠ 0 := by
    rcases Bool.or_eq_true_iff.mp h1 with hx | hx
    · exact Or.inl (by simpa [List.isEmpty_iff] using hx)
    · exact Or.inr (by simpa using hx)
  obtain ⟨ts1, hts1⟩ := dfsKidsClade_ok k ch hw hIH h2 d s o ts
  rw [dfsNode.eq_1]
  simp only [hts1]
  cases e with
  | true => exact ⟨ts1, by simp [onNodeClade]⟩
  | false => exact ⟨tiersAppend d (c, s, o) ts1, by simp [onNodeClade]⟩

theorem dfsClade_ok (n : RNode) :
    noZeroDiv n = true → ∀ (d : ℕ) (s o : ℚ) (ts : Tiers),
      ∃ ts', dfsNode onNodeClade n d s o ts = .ok ts' :=
  fun hn d s o ts =>
    dfsCladeNode_ok_of n
      (fun p hp d' s' o' ts' hz => dfsClade_ok p.2 hz d' s' o' ts') hn d s o ts
termination_by sizeOf n
decreasing_by exact sizeOf_child_lt hp

/-- C6 as stated is false: `add` does accept zero and negative weights
without validation, but a node with weight 0 and nonzero children is *not*
impossible — a single record of weight 0 produces one — and partitioning such
a tree *does* crash, with the `ZeroDivisionError` of
`node_size * child.count/node_count`. -/
theorem c6_counterexample :
    (buildTree [(["A"], (0 : ℤ))]).root.count = 0 ∧
      (buildTree [(["A"], (0 : ℤ))]).root.children ≠ [] ∧
      ringsClade (buildTree [(["A"], (0 : ℤ))]) = .error zeroDivMsg := by
  have e : buildTree [(["A"], (0 : ℤ))] =
      ⟨RNode.mk "^" 0 false [("A", RNode.mk "A" 0 false [("$", RNode.mk "$" 1 true [])])],
        ["A"]⟩ := rfl
  refine ⟨rfl, ?_, ?_⟩
  · rw [e]
    exact fun h => List.noConfusion h
  · rw [e]
    show dfsNode onNodeClade _ 0 1 0 [] = _
    norm_num [dfsNode.eq_1, dfsKids.eq_1, dfsKids.eq_2, onNodeClade]

/-- C6 (amended): records with zero or negative weight are accepted by `add`
without validation (the weight is simply added to every node along the
path); partitioning does not crash provided every node that has children has
nonzero total weight — but a zero-weight record makes the root a weight-0
node with children, and partitioning such a tree raises a division by
zero. -/
theorem c6_zero_weight_handling :
    (∀ (p : List String) (w : ℤ) (t : PyTree),
      ((t.add p w).root.count = t.root.count + w)) ∧
    (∀ t : PyTree, noZeroDiv t.root = true → ∃ ts, ringsClade t = .ok ts) :=
  ⟨fun p w t => addClades_count t.root p w,
    fun t h => dfsClade_ok t.root h 0 1 0 []⟩

/-- Witness for C6 (amended): a tree with no zero-weight interior nodes is
partitioned without error, and a negative weight is accepted arithmetically. -/
theorem c6_zero_weight_handling_witness :
    noZeroDiv (buildTree [(["A"], (2 : ℤ))]).root = true ∧
      (∃ ts, ringsClade (buildTree [(["A"], (2 : ℤ))]) = .ok ts) ∧
      ((treeNew.add ["A"] (-5)).root.count = treeNew.root.count + (-5)) :=
  ⟨by decide, (c6_zero_weight_handling.2 _ (by decide)),
    c6_zero_weight_handling.1 ["A"] (-5) treeNew⟩

/-! ## Claim C1: the angular intervals assigned to a node's children -/

theorem childIntervals_nil (w : ℤ) (size cursor : ℚ) :
    childIntervals w [] size cursor = .ok [] := rfl

theorem childIntervals_cons (w : ℤ) (k : String) (child : RNode)
    (rest : List (String × RNode)) (size cursor : ℚ) :
    childIntervals w ((k, child) :: rest) size cursor =
      if w = 0 then .error zeroDivMsg
      else
        match childIntervals w rest size
            (cursor + size * (child.count : ℚ) / (w : ℚ)) with
        | .error m => .error m
        | .ok l => .ok ((k, size * (child.count : ℚ) / (w : ℚ), cursor) :: l) :=
  rfl

theorem contiguousFrom_nil (o : ℚ) : contiguousFrom o [] := trivial

theorem contiguousFrom_cons (o : ℚ) (k : String) (s off : ℚ)
    (rest : List (String × ℚ × ℚ)) :
    contiguousFrom o ((k, s, off) :: rest) ↔
      off = o ∧ contiguousFrom (o + s) rest := Iff.rfl

theorem childIntervals_spec (w : ℤ) (hw : w ≠ 0) :
    ∀ (kids : List (String × RNode)) (size offset : ℚ),
      ∃ out, childIntervals w kids size offset = .ok out ∧
        out.map (fun e => (e.1, e.2.1)) =
          kids.map (fun q => (q.1, size * (q.2.count : ℚ) / (w : ℚ))) ∧
        contiguousFrom offset out ∧
        (out.map (fun e => e.2.1)).sum =
          size * (((kids.map (fun q => q.2.count)).sum : ℤ) : ℚ) / (w : ℚ) ∧
        (0 < w → 0 ≤ size → (∀ q ∈ kids, 0 ≤ q.2.count) →
          ∀ e ∈ out, 0 ≤ e.2.1) := by
  intro kids
  induction kids with
  | nil =>
    intro size offset
    refine ⟨[], childIntervals_nil w size offset, rfl, trivial, ?_, ?_⟩
    · simp
    · intro _ _ _ e he
      simp at he
  | cons q rest ih =>
    intro size offset
    obtain ⟨k, child⟩ := q
    obtain ⟨l, hl, hmap, hcont, hsum, hnn⟩ :=
      ih size (offset + size * (child.count : ℚ) / (w : ℚ))
    refine ⟨(k, size * (child.count : ℚ) / (w : ℚ), offset) :: l, ?_, ?_, ?_, ?_, ?_⟩
    · rw [childIntervals_cons, if_neg hw]
      simp only [hl]
    · simp only [List.map_cons, hmap]
    · exact (contiguousFrom_cons _ _ _ _ _).mpr ⟨rfl, hcont⟩
    · have hwq : ((w : ℤ) : ℚ) ≠ 0 := Int.cast_ne_zero.mpr hw
      simp only [List.map_cons, List.sum_cons, hsum]
      push_cast
      field_simp
      ring
    · intro hwpos hsize hq e he
      rcases List.mem_cons.mp he with rfl | he
      · have hwq : (0 : ℚ) < (w : ℚ) := by exact_mod_cast hwpos
        have hcq : (0 : ℚ) ≤ (child.count : ℚ) := by
          exact_mod_cast hq (k, child) (List.mem_cons_self _ _)
        exact div_nonneg (mul_nonneg hsize hcq) (le_of_lt hwq)
      · exact hnn hwpos hsize (fun q hq2 => hq q (List.mem_cons_of_mem _ hq2)) e he

theorem contiguous_start_le (out : List (String × ℚ × ℚ)) :
    ∀ o : ℚ, contiguousFrom o out → (∀ e ∈ out, 0 ≤ e.2.1) →
      ∀ e ∈ out, o ≤ e.2.2 := by
  induction out with
  | nil => intro o _ _ e he; simp at he
  | cons x rest ih =>
    intro o hc hnn e he
    obtain ⟨k, s, off⟩ := x
    obtain ⟨hoff, hrest⟩ := (contiguousFrom_cons _ _ _ _ _).mp hc
    rcases List.mem_cons.mp he with rfl | he
    · simp [hoff]
    · have hs : 0 ≤ s := by
        simpa using hnn (k, s, off) (List.mem_cons_self _ _)
      have := ih (o + s) hrest (fun e2 he2 => hnn e2 (List.mem_cons_of_mem _ he2)) e he
      linarith

theorem contiguous_pairwise_disjoint (out : List (String × ℚ × ℚ)) :
    ∀ o : ℚ, contiguousFrom o out → (∀ e ∈ out, 0 ≤ e.2.1) →
      List.Pairwise (fun a b => a.2.2 + a.2.1 ≤ b.2.2 ∨ b.2.2 + b.2.1 ≤ a.2.2) out := by
  induction out with
  | nil => intro o _ _; exact List.Pairwise.nil
  | cons x rest ih =>
    intro o hc hnn
    obtain ⟨k, s, off⟩ := x
    obtain ⟨hoff, hrest⟩ := (contiguousFrom_cons _ _ _ _ _).mp hc
    refine List.Pairwise.cons ?_ (ih (o + s) hrest
      (fun e2 he2 => hnn e2 (List.mem_cons_of_mem _ he2)))
    intro b hb
    left
    have := contiguous_start_le rest (o + s) hrest
      (fun e2 he2 => hnn e2 (List.mem_cons_of_mem _ he2)) b hb
    simp only
    linarith [hoff.le, hoff.ge]

/-- C1 as stated is false: the synthetic end-marker child does *not* consume
zero angular width, and the children's sizes do *not* sum to the node's own
size.  In the tree of `add(["A"], 3)`, node `A` (weight 3, size 1) has the
end marker as its only child, which is assigned the interval
`("$", 1/3, 0)`: width `1/3 ≠ 0`, and the emitted (non-end) children's sizes
sum to `0 ≠ 1`. -/
theorem c1_counterexample :
    lookupPath (buildTree [(["A"], (3 : ℤ))]).root ["A"] =
        some (RNode.mk "A" 3 false [("$", RNode.mk "$" 1 true [])]) ∧
      nodeIntervals (RNode.mk "A" 3 false [("$", RNode.mk "$" 1 true [])]) 1 0 =
        .ok [("$", 1/3, 0)] ∧
      ¬((1 : ℚ)/3 = 0) ∧
      ((([("$", (1 : ℚ)/3, (0 : ℚ))].filter (fun e => !(e.1 == "$"))).map
          (fun e => e.2.1)).sum = 0 ∧ ¬((0 : ℚ) = 1)) := by
  refine ⟨rfl, ?_, by norm_num, by norm_num, by norm_num⟩
  show childIntervals 3 [("$", RNode.mk "$" 1 true [])] 1 0 = _
  norm_num [childIntervals_cons, childIntervals_nil]

/-- C1 (amended): for every node of a tree built from records whose segments
avoid the reserved end marker, with nonzero weight, the `_dfs` child loop
assigns to its children — the end-marker child included — angular intervals
that are contiguous starting at the node's own offset, in sorted-label order
(the children keys are sorted), each of width
`size * child.count / node.count` (so an end marker consumes
`size / node.count`, not zero), non-overlapping whenever the weights involved
are nonnegative; their sizes sum to
`size * (sum of children weights) / node.count`, which equals the node's own
size only when the children's weights sum to the node's weight.  End-marker
children are still excluded from the emitted ring lists. -/
theorem c1_partition_intervals {recs : List RecT} {p : List String} {n : RNode}
    (hd : dollarFree recs)
    (hlook : lookupPath (buildTree recs).root p = some n)
    (hw : n.count ≠ 0) (size offset : ℚ) :
    ∃ out, nodeIntervals n size offset = .ok out ∧
      out.map (fun e => (e.1, e.2.1)) =
        n.children.map (fun q => (q.1, size * (q.2.count : ℚ) / (n.count : ℚ))) ∧
      sortedKeysB (n.children.map (fun q => q.1)) = true ∧
      contiguousFrom offset out ∧
      (out.map (fun e => e.2.1)).sum =
        size * (((n.children.map (fun q => q.2.count)).sum : ℤ) : ℚ) / (n.count : ℚ) ∧
      (0 < n.count → 0 ≤ size → (∀ q ∈ n.children, 0 ≤ q.2.count) →
        List.Pairwise (fun a b => a.2.2 + a.2.1 ≤ b.2.2 ∨ b.2.2 + b.2.1 ≤ a.2.2) out) ∧
      (∀ (m : RNode) (d : ℕ) (s o : ℚ) (ts : Tiers), m.isEnd = true →
        onNodeClade m d s o ts = .ok ts) := by
  obtain ⟨out, h1, h2, h3, h4, h5⟩ := childIntervals_spec n.count hw n.children size offset
  have hsorted : sortedKeysB (n.children.map (fun q => q.1)) = true := by
    have hwf := lookupPath_wfT p _ n (wfT_buildTree hd) hlook
    obtain ⟨c, k, e, ch⟩ := n
    rw [wfT_mk] at hwf
    exact (Bool.and_eq_true_iff.mp hwf).1
  refine ⟨out, h1, h2, hsorted, h3, h4, ?_, ?_⟩
  · intro hpos hsize hq
    exact contiguous_pairwise_disjoint out offset h3 (h5 hpos hsize hq)
  · intro m d s o ts hm
    simp [onNodeClade, hm]

/-- Witness for C1 (amended): node `A` of the tree built from
`add(["A"], 3); add(["A","B"], 2)` has weight 5 and children
`{"$": EndNode, "B": ...}`; its child intervals at `(size, offset) = (1, 0)`
exist and tile the interval starting at 0. -/
theorem c1_partition_intervals_witness :
    dollarFree [(["A"], (3 : ℤ)), (["A", "B"], 2)] ∧
      (RNode.mk "A" 5 false
          [("$", endNode), ("B", RNode.mk "B" 2 false [("$", endNode)])]).count ≠ 0 ∧
      ∃ out, nodeIntervals
          (RNode.mk "A" 5 false
            [("$", endNode), ("B", RNode.mk "B" 2 false [("$", endNode)])]) 1 0 =
          .ok out ∧ contiguousFrom 0 out :=
  ⟨by decide, by decide, by
    obtain ⟨out, h1, -, -, h4, -, -, -⟩ :=
      @c1_partition_intervals [(["A"], (3 : ℤ)), (["A", "B"], 2)] ["A"]
        (RNode.mk "A" 5 false
          [("$", endNode), ("B", RNode.mk "B" 2 false [("$", endNode)])])
        (by decide) rfl (by decide) 1 0
    exact ⟨out, h1, h4⟩⟩

/-! ## Claim C8: label placement respects the minimum spacing -/

theorem isRoom_spec {occupied : List (ℚ × ℚ)} {x y : ℚ}
    (h : isRoom occupied x y = true) :
    ∀ o ∈ occupied, LETTER_SPACING ^ 2 ≤ (o.1 - x) ^ 2 + (o.2 - y) ^ 2 := by
  intro o ho
  have := (List.all_eq_true.mp h) o ho
  simpa [not_lt] using this

theorem placeLoop_spec (cands : List LabelCand) :
    ∀ occupied : List (ℚ × ℚ),
      (∀ t ∈ placeLoop occupied cands, ∀ o ∈ occupied,
        LETTER_SPACING ^ 2 ≤ (o.1 - t.2.1) ^ 2 + (o.2 - t.2.2) ^ 2) ∧
      List.Pairwise (fun a b =>
        LETTER_SPACING ^ 2 ≤ (a.2.1 - b.2.1) ^ 2 + (a.2.2 - b.2.2) ^ 2)
        (placeLoop occupied cands) := by
  induction cands with
  | nil =>
    intro occupied
    constructor
    · intro t ht
      simp [placeLoop] at ht
    · simp [placeLoop]
  | cons c rest ih =>
    intro occupied
    obtain ⟨clade, sz, x, y⟩ := c
    by_cases hroom : isRoom occupied x y = true
    · have heq : placeLoop occupied ((clade, sz, x, y) :: rest) =
          (clade.toUpper, x, y) :: placeLoop (occupied ++ [(x, y)]) rest := by
        simp [placeLoop, hroom]
      obtain ⟨ihFar, ihPair⟩ := ih (occupied ++ [(x, y)])
      constructor
      · intro t ht o ho
        rw [heq] at ht
        rcases List.mem_cons.mp ht with rfl | ht
        · exact isRoom_spec hroom o ho
        · exact ihFar t ht o (List.mem_append_left _ ho)
      · rw [heq]
        refine List.Pairwise.cons ?_ ihPair
        intro b hb
        exact ihFar b hb (x, y) (List.mem_append_right _ (List.mem_cons_self _ _))
    · have heq : placeLoop occupied ((clade, sz, x, y) :: rest) =
          placeLoop occupied rest := by
        simp [placeLoop, hroom]
      rw [heq]
      exact ih occupied

/-- C8: for every input, no two labels placed in the chart output have
anchor-to-anchor Euclidean distance below the configured minimum spacing
`LETTER_SPACING`: a candidate is emitted only if its squared distance to
every already-placed label anchor is at least the spacing squared, so the
emitted anchors are pairwise at squared distance at least
`LETTER_SPACING ^ 2` (equivalently, at Euclidean distance at least
`LETTER_SPACING`).  The statement quantifies over arbitrary rational
candidate anchors, covering in particular those that
`CircleDiagram._draw_clades` computes from the ring geometry. -/
theorem c8_label_spacing (cands : List LabelCand) :
    List.Pairwise (fun a b =>
      LETTER_SPACING ^ 2 ≤ (a.2.1 - b.2.1) ^ 2 + (a.2.2 - b.2.2) ^ 2)
      (drawClades cands) :=
  (placeLoop_spec (sortBySizeDesc cands) []).2

/-! ## Claim C9: template substitution in `Svg.save` -/

theorem splitFuel_ne_nil (sep : List Char) :
    ∀ (fuel : ℕ) (s : List Char), splitFuel sep fuel s ≠ [] := by
  intro fuel
  induction fuel with
  | zero => intro s; simp [splitFuel]
  | succ f ih =>
    intro s
    cases s with
    | nil => simp [splitFuel]
    | cons c rest =>
      rw [splitFuel]
      by_cases hpre : sep.isPrefixOf (c :: rest) = true
      · simp [hpre]
      · simp only [hpre]
        cases hs : splitFuel sep f rest with
        | nil => simp
        | cons chunk more => simp

theorem isPrefixOf_restore {sep : List Char} :
    ∀ {s : List Char}, sep.isPrefixOf s = true → sep ++ s.drop sep.length = s := by
  induction sep with
  | nil => intro s _; simp
  | cons a as ih =>
    intro s h
    cases s with
    | nil => simp [List.isPrefixOf] at h
    | cons b bs =>
      simp only [List.isPrefixOf, Bool.and_eq_true_iff] at h
      obtain ⟨hab, hrest⟩ := h
      have : a = b := by simpa using hab
      subst this
      simp only [List.cons_append, List.length_cons, List.drop_succ_cons]
      rw [ih hrest]

theorem splitFuel_singleton (sep : List Char) :
    ∀ (fuel : ℕ) (s t : List Char), splitFuel sep fuel s = [t] → t = s := by
  intro fuel
  induction fuel with
  | zero =>
    intro s t h
    exact ((List.cons.inj h).1).symm
  | succ f ih =>
    intro s t h
    cases s with
    | nil =>
      have : ([] : List Char) = t := by simpa [splitFuel] using (List.cons.inj h).1
      exact this.symm
    | cons c rest =>
      rw [splitFuel] at h
      by_cases hpre : sep.isPrefixOf (c :: rest) = true
      · rw [if_pos hpre] at h
        obtain ⟨-, htail⟩ := List.cons.inj h
        have htail' : splitFuel sep f ((c :: rest).drop sep.length) = [] := by
          simpa using htail
        exact absurd htail' (splitFuel_ne_nil sep f _)
      · rw [if_neg hpre] at h
        cases hs : splitFuel sep f rest with
        | nil => exact absurd hs (splitFuel_ne_nil sep f rest)
        | cons chunk more =>
          rw [hs] at h
          obtain ⟨hc, hmore⟩ := List.cons.inj h
          have hmore' : more = [] := by simpa using hmore
          subst hmore'
          have := ih rest chunk (by rw [hs])
          rw [← hc, this]

theorem splitFuel_pair (sep : List Char) :
    ∀ (fuel : ℕ) (s p1 t : List Char),
      splitFuel sep fuel s = [p1, t] → s = p1 ++ sep ++ t := by
  intro fuel
  induction fuel with
  | zero =>
    intro s p1 t h
    simp [splitFuel] at h
  | succ f ih =>
    intro s p1 t h
    cases s with
    | nil => simp [splitFuel] at h
    | cons c rest =>
      rw [splitFuel] at h
      by_cases hpre : sep.isPrefixOf (c :: rest) = true
      · rw [if_pos hpre] at h
        obtain ⟨hp1, htail⟩ := List.cons.inj h
        obtain rfl : p1 = [] := hp1.symm
        have htail' : splitFuel sep f ((c :: rest).drop sep.length) = [t] := by
          simpa using htail
        have ht : t = (c :: rest).drop sep.length :=
          splitFuel_singleton sep f _ t htail'
        rw [ht]
        simpa using (isPrefixOf_restore hpre).symm
      · rw [if_neg hpre] at h
        cases hs : splitFuel sep f rest with
        | nil => exact absurd hs (splitFuel_ne_nil sep f rest)
        | cons chunk more =>
          rw [hs] at h
          obtain ⟨hc, hmore⟩ := List.cons.inj h
          have hmore' : more = [t] := by simpa using hmore
          subst hmore'
          have := ih rest chunk t (by rw [hs])
          rw [← hc, this]
          simp

theorem splitFuel_of_no_marker (sep : List Char) :
    ∀ (fuel : ℕ) (s : List Char), containsSub sep s = false →
      splitFuel sep fuel s = [s] := by
  intro fuel
  induction fuel with
  | zero => intro s _; rfl
  | succ f ih =>
    intro s hc
    cases s with
    | nil => rfl
    | cons c rest =>
      simp only [containsSub, Bool.or_eq_false_iff] at hc
      obtain ⟨h1, h2⟩ := hc
      rw [splitFuel, if_neg (by simp [h1]), ih rest h2]

theorem splitOnSub_pair {sep s p1 t : List Char}
    (h : splitOnSub sep s = [p1, t]) : s = p1 ++ sep ++ t :=
  splitFuel_pair sep (s.length + 1) s p1 t h

/-- C9: serialization substitutes the style placeholder with the
concatenated style rules in the order they were added, and the content
placeholder with the concatenated content primitives in the order they were
added, preserving all other template text verbatim (the output is
`part1 ++ styles ++ part2 ++ content ++ part3` where the template is exactly
`part1 ++ "%style%" ++ part2 ++ "%substance%" ++ part3`); and if the template
lacks a placeholder marker, serialization fails with the unpacking
`ValueError` rather than producing output. -/
theorem c9_svg_save (template : List Char) (styles content : List (List Char)) :
    (∀ p1 t p2 p3 : List Char,
      splitOnSub styleMarker template = [p1, t] →
      splitOnSub substanceMarker t = [p2, p3] →
      svgSave template styles content =
          .ok (p1 ++ styles.flatten ++ p2 ++ content.flatten ++ p3) ∧
        template = p1 ++ styleMarker ++ p2 ++ substanceMarker ++ p3) ∧
    (containsSub styleMarker template = false →
      svgSave template styles content = .error valueErrMsg) := by
  constructor
  · intro p1 t p2 p3 h1 h2
    constructor
    · rw [svgSave, h1]
      simp [h2]
    · have e1 : template = p1 ++ styleMarker ++ t := splitOnSub_pair h1
      have e2 : t = p2 ++ substanceMarker ++ p3 := splitOnSub_pair h2
      rw [e1, e2]
      simp [List.append_assoc]
  · intro hc
    have h1 : splitOnSub styleMarker template = [template] :=
      splitFuel_of_no_marker styleMarker (template.length + 1) template hc
    rw [svgSave, h1]

/-- Witness for C9: a small concrete template with both markers is
substituted with the stored styles and content in order, and a template
without the style marker makes `save` fail. -/
theorem c9_svg_save_witness :
    (svgSave
        (['A'] ++ styleMarker ++ ['B'] ++ substanceMarker ++ ['C'])
        [['s', '1'], ['s', '2']] [['c', '1']] =
          .ok (['A'] ++ [['s', '1'], ['s', '2']].flatten ++ ['B'] ++
            [['c', '1']].flatten ++ ['C']) ∧
      (['A'] ++ styleMarker ++ ['B'] ++ substanceMarker ++ ['C'] : List Char) =
        ['A'] ++ styleMarker ++ ['B'] ++ substanceMarker ++ ['C']) ∧
    svgSave ['X'] [] [] = .error valueErrMsg :=
  ⟨(c9_svg_save (['A'] ++ styleMarker ++ ['B'] ++ substanceMarker ++ ['C'])
      [['s', '1'], ['s', '2']] [['c', '1']]).1
    ['A'] (['B'] ++ substanceMarker ++ ['C']) ['B'] ['C'] (by rfl) (by rfl),
    (c9_svg_save ['X'] [] []).2 (by rfl)⟩
